import Mathlib

/-! # Singly linked list of `dsa/src/include/List.h`

Shallow embedding of the template class `List<U>`, its private class `Node` and its
`ForwardIterator`, followed by theorems about the public operations.

Modelling conventions

* A `Node*` that owns its pointee (`Node::m_next`) is a `Link`: `nullptr`, a pointer to a
  node that has already been deleted (`dangling`), or a live node with its two members.
  Every node has exactly one owner, so the chain that starts at `List::m_head` is a
  value of this type and needs no separate heap.
* A `Node*` that does not own (`ForwardIterator::m_itr`) is a `NodeRef`: `nullptr`,
  `dangling`, or the number of `m_next` links between `m_head` and the node.
* `assert` is enabled (the tests rely on `ASSERT_DEATH`).  A failed assertion and the
  undefined behaviours of the pointer code (null dereference, use of a deleted node,
  second `delete`, read of a never-written payload, index outside an array, a call
  for which the stack has no room) are the constructors of `Fault`.
* `int` and `ptrdiff_t` are `Int`; a loop `for (i = 0; i <= hi; i++)` runs
  `(hi + 1).toNat` times.  The one `int` expression that can leave the range of `int`
  on a list of fewer than `2^31 - 1` nodes is `position - 2` in `remove_at`, for the
  positions `INT_MIN` and `INT_MIN + 1`; it wraps around modulo `2^32`
  (`LinkedList.positionMinusTwo`).
* A node payload is `Option U`: `none` is the indeterminate value of a member that was
  never written (the payload of the sentinel `m_head`, built by `Node()`).
-/

namespace Dsa

/-! ## Faults and outcomes -/

/-- Ways in which a call stops instead of returning. -/
inductive Fault where
  | assertion (msg : String)
  | nullDeref
  | useAfterFree
  | doubleFree
  | indeterminate
  | outOfBounds
  | stackOverflow
  deriving DecidableEq, Repr

/-- Result of a call on an object of type `σ`: it returned and left the object in state
`s`, or it stopped with fault `f` while the object was in state `s`. -/
inductive Outcome (σ : Type) where
  | returned (s : σ)
  | aborted (f : Fault) (s : σ)
  deriving DecidableEq, Repr

/-! ## `List<U>::Node` -/

/-- An owning `Node*`, as held in `Node::m_next`. -/
inductive Link (U : Type) where
  | nullptr : Link U
  | dangling : Link U
  | live (m_value : Option U) (m_next : Link U) : Link U
  deriving DecidableEq, Repr

/-- A `Node` object: `Node* m_next; U m_value;`. -/
structure Node (U : Type) where
  m_value : Option U
  m_next : Link U
  deriving DecidableEq, Repr

variable {U : Type}

/-- Constructor `explicit Node() : m_next(nullptr)`: the payload is left unwritten. -/
def Node.default : Node U :=
  { m_value := none, m_next := Link.nullptr }

/-- Constructor `explicit Node(const U& value) : m_next(nullptr), m_value(value)`. -/
def Node.ofValue (value : U) : Node U :=
  { m_value := some value, m_next := Link.nullptr }

/-- The owning pointer returned by `new` for a node object. -/
def Node.toLink (n : Node U) : Link U :=
  Link.live n.m_value n.m_next

/-- Member `Node::insert_front`: `tmp = new Node(this->m_value); tmp->m_next = this->m_next;
this->m_next = tmp; this->m_value = value;`. -/
def Node.insert_front (self : Node U) (value : U) : Node U :=
  let tmp : Node U := { m_value := self.m_value, m_next := Link.nullptr }
  let tmp : Node U := { tmp with m_next := self.m_next }
  { m_value := some value, m_next := tmp.toLink }

/-- Member `Node::insert_back`: `tmp = new Node(value); tmp->m_next = this->m_next;
this->m_next = tmp;`. -/
def Node.insert_back (self : Node U) (value : U) : Node U :=
  let tmp : Node U := Node.ofValue value
  let tmp : Node U := { tmp with m_next := self.m_next }
  { self with m_next := tmp.toLink }

/-- Statement `delete p` for an owning `Node* p`.  The destructor `~Node()` runs first:
`if (m_next == nullptr) { } else { delete m_next; }`, so the whole chain behind the
pointee is deleted with it.  Deleting a node twice is a fault. -/
def Link.delete : Link U → Except Fault Unit
  | Link.nullptr => Except.ok ()
  | Link.dangling => Except.error Fault.doubleFree
  | Link.live _ m_next =>
    match m_next with
    | Link.nullptr => Except.ok ()
    | next => Link.delete next

/-- Value of a copy of the pointer `p` once the node it pointed to has been deleted. -/
def Link.afterDelete : Link U → Link U
  | Link.nullptr => Link.nullptr
  | _ => Link.dangling

/-- Member `Node::remove_back`: `assert(m_next != nullptr); tmp = m_next->m_next;
delete m_next; m_next = tmp;`.  The `delete` runs `~Node()` on the successor while it
still owns `tmp`, so the node `tmp` points to is deleted as well. -/
def Node.remove_back (self : Node U) : Except Fault (Node U) :=
  match self.m_next with
  | Link.nullptr => Except.error (Fault.assertion "Cannot remove nullptr node")
  | Link.dangling => Except.error Fault.useAfterFree
  | Link.live m_value tmp =>
    match Link.delete (Link.live m_value tmp) with
    | Except.error f => Except.error f
    | Except.ok _ => Except.ok { self with m_next := tmp.afterDelete }

/-- The node reached from `self` by following `depth` links `m_next`. -/
def Node.follow (self : Node U) : Nat → Except Fault (Node U)
  | 0 => Except.ok self
  | depth + 1 =>
    match self.m_next with
    | Link.nullptr => Except.error Fault.nullDeref
    | Link.dangling => Except.error Fault.useAfterFree
    | Link.live m_value m_next => Node.follow { m_value := m_value, m_next := m_next } depth

/-- Run the member function `f` on the node reached from `self` by following `depth`
links, and return `self` with that node replaced by the result. -/
def Node.update (f : Node U → Except Fault (Node U)) (self : Node U) :
    Nat → Except Fault (Node U)
  | 0 => f self
  | depth + 1 =>
    match self.m_next with
    | Link.nullptr => Except.error Fault.nullDeref
    | Link.dangling => Except.error Fault.useAfterFree
    | Link.live m_value m_next =>
      match Node.update f { m_value := m_value, m_next := m_next } depth with
      | Except.error e => Except.error e
      | Except.ok n => Except.ok { self with m_next := n.toLink }

/-! ## `List<U>::ForwardIterator` -/

/-- A non-owning `Node*` into the chain of a list, as held in `ForwardIterator::m_itr`.
`node depth` is the node `depth` links behind `m_head` (`node 0` is `&m_head`). -/
inductive NodeRef where
  | nullptr
  | dangling
  | node (depth : Nat)
  deriving DecidableEq, Repr

/-- The iterator object: `Node* m_itr;`. -/
structure ForwardIterator where
  m_itr : NodeRef
  deriving DecidableEq, Repr

/-- Constructor `explicit ForwardIterator(Node& Node) : m_itr(&Node)`, called with `m_head`. -/
def ForwardIterator.ofHead : ForwardIterator :=
  { m_itr := NodeRef.node 0 }

/-- Constructor `ForwardIterator() : m_itr(nullptr)`. -/
def ForwardIterator.default : ForwardIterator :=
  { m_itr := NodeRef.nullptr }

/-- Pre-increment `operator++`: `assert(m_itr != nullptr); m_itr = m_itr->m_next;`. -/
def ForwardIterator.increment (m_head : Node U) (self : ForwardIterator) :
    Except Fault ForwardIterator :=
  match self.m_itr with
  | NodeRef.nullptr => Except.error (Fault.assertion "Out-of-bounds iterator increment!")
  | NodeRef.dangling => Except.error Fault.useAfterFree
  | NodeRef.node depth =>
    match m_head.follow depth with
    | Except.error e => Except.error e
    | Except.ok n =>
      match n.m_next with
      | Link.nullptr => Except.ok { m_itr := NodeRef.nullptr }
      | Link.dangling => Except.ok { m_itr := NodeRef.dangling }
      | Link.live _ _ => Except.ok { m_itr := NodeRef.node (depth + 1) }

/-- Dereference `operator*`: `assert(m_itr != nullptr); return m_itr->m_value;`. -/
def ForwardIterator.deref (m_head : Node U) (self : ForwardIterator) : Except Fault U :=
  match self.m_itr with
  | NodeRef.nullptr => Except.error (Fault.assertion "Invalid iterator dereference!")
  | NodeRef.dangling => Except.error Fault.useAfterFree
  | NodeRef.node depth =>
    match m_head.follow depth with
    | Except.error e => Except.error e
    | Except.ok n =>
      match n.m_value with
      | none => Except.error Fault.indeterminate
      | some v => Except.ok v

/-- Call `m_itr->f()` for a member function `f` of `Node`; the result is the chain of
`m_head` after the call. -/
def ForwardIterator.call (f : Node U → Except Fault (Node U)) (m_head : Node U)
    (self : ForwardIterator) : Except Fault (Node U) :=
  match self.m_itr with
  | NodeRef.nullptr => Except.error Fault.nullDeref
  | NodeRef.dangling => Except.error Fault.useAfterFree
  | NodeRef.node depth => m_head.update f depth

/-- Member `ForwardIterator::insert_front`: `m_itr->insert_front(value)`. -/
def ForwardIterator.insert_front (m_head : Node U) (self : ForwardIterator) (value : U) :
    Except Fault (Node U) :=
  self.call (fun n => Except.ok (n.insert_front value)) m_head

/-- Member `ForwardIterator::insert_back`: `m_itr->insert_back(value)`. -/
def ForwardIterator.insert_back (m_head : Node U) (self : ForwardIterator) (value : U) :
    Except Fault (Node U) :=
  self.call (fun n => Except.ok (n.insert_back value)) m_head

/-- Member `ForwardIterator::remove_back`: `m_itr->remove_back()`. -/
def ForwardIterator.remove_back (m_head : Node U) (self : ForwardIterator) :
    Except Fault (Node U) :=
  self.call Node.remove_back m_head

/-- The loop `for (...) { ++itr; }` with `count` iterations. -/
def ForwardIterator.advance (m_head : Node U) (self : ForwardIterator) :
    Nat → Except Fault ForwardIterator
  | 0 => Except.ok self
  | count + 1 =>
    match self.increment m_head with
    | Except.error e => Except.error e
    | Except.ok itr => ForwardIterator.advance m_head itr count

/-! ## `List<U>` -/

/-- The list object: `Node m_head; int m_size;`. -/
structure LinkedList (U : Type) where
  m_head : Node U
  m_size : Int
  deriving DecidableEq, Repr

/-- Constructor `List() : m_size(0)`; `m_head` is built by `Node()`. -/
def LinkedList.empty : LinkedList U :=
  { m_head := Node.default, m_size := 0 }

/-- The loop of the sized constructor with `count` iterations left:
`itr.insert_back(value); ++itr;`.  It threads the chain of `m_head` and the iterator. -/
def LinkedList.fill (value : U) (m_head : Node U) (itr : ForwardIterator) :
    Nat → Except (Fault × Node U) (Node U)
  | 0 => Except.ok m_head
  | count + 1 =>
    match itr.insert_back m_head value with
    | Except.error f => Except.error (f, m_head)
    | Except.ok head =>
      match itr.increment head with
      | Except.error f => Except.error (f, head)
      | Except.ok next => LinkedList.fill value head next count

/-- Constructor `List(int size, const U& value) : m_size(size)`: when `m_size` is not zero, an
iterator at `m_head` runs `for (i = 0; i < m_size; i++) { itr.insert_back(value); ++itr; }`. -/
def LinkedList.sized (size : Int) (value : U) : Outcome (LinkedList U) :=
  let m_head : Node U := Node.default
  let m_size : Int := size
  if m_size ≠ 0 then
    match LinkedList.fill value m_head ForwardIterator.ofHead m_size.toNat with
    | Except.error (f, head) => Outcome.aborted f { m_head := head, m_size := m_size }
    | Except.ok head => Outcome.returned { m_head := head, m_size := m_size }
  else
    Outcome.returned { m_head := m_head, m_size := m_size }

/-- Member `size()`: `return m_size;`. -/
def LinkedList.size (self : LinkedList U) : Int :=
  self.m_size

/-- Member `is_init()`: `return bool(m_size);`. -/
def LinkedList.is_init (self : LinkedList U) : Bool :=
  decide (self.m_size ≠ 0)

/-- Member `insert_back(value, position)`: the assertion on `position`, then an iterator walks
from `m_head` with `for (i = 0; i <= position; i++) ++itr;`, `itr.insert_back(value)`,
`m_size++`. -/
def LinkedList.insert_back (self : LinkedList U) (value : U) (position : Int) :
    Outcome (LinkedList U) :=
  if self.m_size > position then
    match ForwardIterator.ofHead.advance self.m_head (position + 1).toNat with
    | Except.error f => Outcome.aborted f self
    | Except.ok itr =>
      match itr.insert_back self.m_head value with
      | Except.error f => Outcome.aborted f self
      | Except.ok head => Outcome.returned { m_head := head, m_size := self.m_size + 1 }
  else
    Outcome.aborted (Fault.assertion "Cannot insert element beyond the end of a list") self

/-- Member `insert_front(value, position)`: as `insert_back`, ending in
`itr.insert_front(value)`. -/
def LinkedList.insert_front (self : LinkedList U) (value : U) (position : Int) :
    Outcome (LinkedList U) :=
  if self.m_size > position then
    match ForwardIterator.ofHead.advance self.m_head (position + 1).toNat with
    | Except.error f => Outcome.aborted f self
    | Except.ok itr =>
      match itr.insert_front self.m_head value with
      | Except.error f => Outcome.aborted f self
      | Except.ok head => Outcome.returned { m_head := head, m_size := self.m_size + 1 }
  else
    Outcome.aborted (Fault.assertion "Cannot insert element beyond the end of a list") self

/-- The `int` expression `position - 2` of `remove_at`.  `position` is an `int`, so the
difference can leave the range of `int` only below `INT_MIN`, which it does for the
positions `INT_MIN` and `INT_MIN + 1`; the result then wraps around modulo `2^32` to
`INT_MAX - 1` and `INT_MAX`. -/
def LinkedList.positionMinusTwo (position : Int) : Int :=
  if position - 2 < -2147483648 then position - 2 + 4294967296 else position - 2

/-- Member `remove_at(position)`: the two assertions, then an iterator walks from `m_head` with
`for (i = 0; i <= position - 2; i++) ++itr;`, `itr.remove_back()`, `m_size--`.  The bound
`position - 2` is computed in `int` and compared with the `ptrdiff_t` counter `i`. -/
def LinkedList.remove_at (self : LinkedList U) (position : Int) : Outcome (LinkedList U) :=
  if self.m_size > position then
    if self.m_size ≠ 0 then
      match ForwardIterator.ofHead.advance self.m_head
          (LinkedList.positionMinusTwo position + 1).toNat with
      | Except.error f => Outcome.aborted f self
      | Except.ok itr =>
        match itr.remove_back self.m_head with
        | Except.error f => Outcome.aborted f self
        | Except.ok head => Outcome.returned { m_head := head, m_size := self.m_size - 1 }
    else
      Outcome.aborted (Fault.assertion "Cannot remove element from an empty list") self
  else
    Outcome.aborted (Fault.assertion "Cannot remove element beyond the end of a list") self

/-- Member `push_back(value)`: `insert_back(value, m_size - 1)`. -/
def LinkedList.push_back (self : LinkedList U) (value : U) : Outcome (LinkedList U) :=
  self.insert_back value (self.m_size - 1)

/-- Member `push_front(value)`: `insert_back(value, 0)`. -/
def LinkedList.push_front (self : LinkedList U) (value : U) : Outcome (LinkedList U) :=
  self.insert_back value 0

/-- Member `pop_back()`: `remove_at(m_size - 1)`. -/
def LinkedList.pop_back (self : LinkedList U) : Outcome (LinkedList U) :=
  self.remove_at (self.m_size - 1)

/-- Member `pop_front()`: `remove_at(0)`. -/
def LinkedList.pop_front (self : LinkedList U) : Outcome (LinkedList U) :=
  self.remove_at 0

/-- Member `at(position)`: the assertion on `position`, then an iterator walks from `m_head`
with `for (i = 0; i <= position; i++) ++itr;` and is dereferenced.  The list is not
modified. -/
def LinkedList.at (self : LinkedList U) (position : Int) : Except Fault U :=
  if self.m_size > position then
    match ForwardIterator.ofHead.advance self.m_head (position + 1).toNat with
    | Except.error f => Except.error f
    | Except.ok itr => itr.deref self.m_head
  else
    Except.error (Fault.assertion "Cannot read element beyond the end of a list")

/-! ## Abstraction: the sequence a list object stands for -/

/-- The chain of live nodes holding the values `xs` in order and ending in `nullptr`. -/
def chainOf : List U → Link U
  | [] => Link.nullptr
  | x :: xs => Link.live (some x) (chainOf xs)

/-- The list object `self` is a well-formed list with contents `xs`: the successor of
the sentinel is the null-terminated chain of the values `xs`, and `m_size` is their
number. -/
def LinkedList.Holds (self : LinkedList U) (xs : List U) : Prop :=
  self.m_head.m_next = chainOf xs ∧ self.m_size = (xs.length : Int)

/-- The list object with contents `xs` whose sentinel payload was never written. -/
def LinkedList.ofList (xs : List U) : LinkedList U :=
  { m_head := { m_value := none, m_next := chainOf xs }, m_size := (xs.length : Int) }

/-- Payload of the node `k` links behind a node with payload `a` and successor chain
`chainOf xs`. -/
def payloadAt (a : Option U) (xs : List U) (k : Nat) : Option U :=
  (a :: xs.map some).getD k none

/-- The chain of live nodes holding the values `xs` in order whose last link is `last`
instead of `nullptr`. -/
def chainEnding (last : Link U) : List U → Link U
  | [] => last
  | x :: xs => Link.live (some x) (chainEnding last xs)

/-- Number of nodes reached by following the links `m_next` from the owning pointer
`self` until `nullptr`, the quantity that the size invariant compares with `m_size`.
A pointer to a deleted node cannot be followed. -/
def Link.nodeCount : Link U → Except Fault Nat
  | Link.nullptr => Except.ok 0
  | Link.dangling => Except.error Fault.useAfterFree
  | Link.live _ m_next =>
    match Link.nodeCount m_next with
    | Except.error e => Except.error e
    | Except.ok n => Except.ok (n + 1)

/-- Statement `delete p` for an owning `Node* p`, run on a call stack that has room for
`room` more calls of `~Node()`.  The destructor of the pointee is entered and, when
`m_next` is not `nullptr`, runs `delete m_next` while it is still active; the memory of
the pointee is released when its destructor has returned.  The result lists the payloads
of the nodes whose memory is released, in the order of release. -/
def Link.deleteOn : Link U → Nat → Except Fault (List (Option U))
  | Link.nullptr, _ => Except.ok []
  | Link.dangling, _ => Except.error Fault.doubleFree
  | Link.live _ _, 0 => Except.error Fault.stackOverflow
  | Link.live m_value m_next, room + 1 =>
    match m_next with
    | Link.nullptr => Except.ok [m_value]
    | next =>
      match Link.deleteOn next room with
      | Except.error e => Except.error e
      | Except.ok released => Except.ok (released ++ [m_value])

/-- The constant `MAX_SIZE` that `Stack.h` defines for the preprocessor. -/
def MAX_SIZE : Nat := 100

/-- An entry of `m_arr`. -/
inductive Slot where
  | unset
  | live (value : Int)
  | deleted
  deriving DecidableEq, Repr

/-- The stack object: `ptrdiff_t* m_arr[MAX_SIZE]; ptrdiff_t m_top;`. -/
structure Stack where
  m_arr : List Slot
  m_top : Int
  deriving DecidableEq, Repr

/-- Constructor `Stack() : m_top(-1)`; the `MAX_SIZE` entries of `m_arr` are not written. -/
def Stack.init : Stack :=
  { m_arr := List.replicate MAX_SIZE Slot.unset, m_top := -1 }

/-- Member `push(value)`: `assert(m_top < MAX_SIZE - 1)`, `store_value = new TYPE(value)`,
`m_arr[m_top + 1] = store_value`, `m_top++`. -/
def Stack.push (self : Stack) (value : Int) : Outcome Stack :=
  if self.m_top < (MAX_SIZE : Int) - 1 then
    if 0 ≤ self.m_top + 1 ∧ (self.m_top + 1).toNat < self.m_arr.length then
      Outcome.returned
        { m_arr := self.m_arr.set (self.m_top + 1).toNat (Slot.live value),
          m_top := self.m_top + 1 }
    else
      Outcome.aborted Fault.outOfBounds self
  else
    Outcome.aborted (Fault.assertion "Stack overflow would occur with push") self

/-- Member `pop()`: `assert(m_top > -1)`, `delete m_arr[m_top]`, `m_top--`. -/
def Stack.pop (self : Stack) : Outcome Stack :=
  if self.m_top > -1 then
    match self.m_arr[self.m_top.toNat]? with
    | none => Outcome.aborted Fault.outOfBounds self
    | some Slot.unset => Outcome.aborted Fault.indeterminate self
    | some Slot.deleted => Outcome.aborted Fault.doubleFree self
    | some (Slot.live _) =>
      Outcome.returned
        { m_arr := self.m_arr.set self.m_top.toNat Slot.deleted, m_top := self.m_top - 1 }
  else
    Outcome.aborted (Fault.assertion "Stack underflow would occur with pop") self

/-- Member `peek()`: `assert(m_top > -1)`, `return *m_arr[m_top]`. -/
def Stack.peek (self : Stack) : Except Fault Int :=
  if self.m_top > -1 then
    match self.m_arr[self.m_top.toNat]? with
    | none => Except.error Fault.outOfBounds
    | some Slot.unset => Except.error Fault.indeterminate
    | some Slot.deleted => Except.error Fault.useAfterFree
    | some (Slot.live value) => Except.ok value
  else
    Except.error (Fault.assertion "Can't peek at an empty stack")

/-- Member `is_empty()`: `return m_top + 1;`, converted to `bool`. -/
def Stack.is_empty (self : Stack) : Bool :=
  decide (self.m_top + 1 ≠ 0)

/-- The stack object `self` holds the values `xs`, bottom first: they are the live
entries `0 .. m_top` of `m_arr`. -/
def Stack.Holds (self : Stack) (xs : List Int) : Prop :=
  self.m_top = (xs.length : Int) - 1 ∧ self.m_arr.length = MAX_SIZE ∧
    xs.length ≤ MAX_SIZE ∧ ∀ i : Nat, i < xs.length → self.m_arr[i]? = (xs[i]?).map Slot.live

end Dsa

/-! # Image classifier of `image_classifier/source`

`Classifier::NeuralNet` takes the rows of `_trainImages` with the Eigen calls
`block(startRow, 0, blockRows, cols)` and `segment(start, n)`, which select the rows
`startRow .. startRow + blockRows - 1`.  `DatasetReader` converts the words of the file
header with the lambda `reverseInt`; `int` is the 32-bit two's complement integer, `>>`
on it is the floor division by a power of two, `& 255` the remainder modulo 256, and the
sum of the shifted bytes is taken modulo `2^32`. -/

namespace ImageClassifier

/-- Row `i` belongs to the Eigen block of `blockRows` rows that starts at `startRow`. -/
def inBlock (startRow blockRows i : Nat) : Prop :=
  startRow ≤ i ∧ i < startRow + blockRows

instance (startRow blockRows i : Nat) : Decidable (inBlock startRow blockRows i) :=
  inferInstanceAs (Decidable (startRow ≤ i ∧ i < startRow + blockRows))

/-- Rows of `_trainImages`: the 60000 images of the MNIST training file. -/
def trainRowCount : Nat := 60000

/-- Rows of `_trainImagesTest = _trainImages.block(49999, 0, 10000, cols)` (and of
`_trainLabels.segment(49999, 10000)`). -/
def inValidation (i : Nat) : Prop :=
  inBlock 49999 10000 i

/-- Rows of `tmpMat = _trainImages.block(0, 0, 50000, cols)` (and of
`_trainLabels.segment(0, 50000)`). -/
def inTraining (i : Nat) : Prop :=
  inBlock 0 50000 i

instance (i : Nat) : Decidable (inValidation i) :=
  inferInstanceAs (Decidable (inBlock 49999 10000 i))

instance (i : Nat) : Decidable (inTraining i) :=
  inferInstanceAs (Decidable (inBlock 0 50000 i))

/-- The value of type `int` congruent to `x` modulo `2^32`. -/
def wrapInt32 (x : Int) : Int :=
  (x + 2147483648) % 4294967296 - 2147483648

/-- The lambda `reverseInt` of `read_mnist_images` and `read_mnist_labels`:
`c1 = i & 255, c2 = (i >> 8) & 255, c3 = (i >> 16) & 255, c4 = (i >> 24) & 255;
return ((int)c1 << 24) + ((int)c2 << 16) + ((int)c3 << 8) + c4;`. -/
def reverseInt (i : Int) : Int :=
  let c1 : Int := i % 256
  let c2 : Int := (i / 256) % 256
  let c3 : Int := (i / 65536) % 256
  let c4 : Int := (i / 16777216) % 256
  wrapInt32 (c1 * 16777216 + c2 * 65536 + c3 * 256 + c4)

/-- Byte `k` of the 32-bit two's complement representation of `x`, byte 0 being the
least significant one. -/
def byteOf (x : Int) (k : Nat) : Int :=
  (x / 256 ^ k) % 256

end ImageClassifier

namespace Dsa

variable {U : Type}

/-! ## Lemmas on chains -/

theorem follow_chainOf (a : Option U) (xs : List U) (k : Nat) (hk : k ≤ xs.length) :
    (Node.mk a (chainOf xs)).follow k
      = Except.ok { m_value := payloadAt a xs k, m_next := chainOf (xs.drop k) } := by
  induction k generalizing a xs with
  | zero => simp [Node.follow, payloadAt]
  | succ k ih =>
    cases xs with
    | nil => simp at hk
    | cons x xs =>
      have hk2 : k ≤ xs.length := by simpa using hk
      simp only [Node.follow, chainOf]
      rw [ih (some x) xs hk2]
      simp [payloadAt]

theorem chainOf_drop_live (xs : List U) (k : Nat) (hk : k < xs.length) :
    chainOf (xs.drop k) = Link.live (some (xs.get ⟨k, hk⟩)) (chainOf (xs.drop (k + 1))) := by
  rw [List.drop_eq_getElem_cons hk]
  simp [chainOf]

theorem increment_chainOf (a : Option U) (xs : List U) (k : Nat) (hk : k < xs.length) :
    ForwardIterator.increment (Node.mk a (chainOf xs)) { m_itr := NodeRef.node k }
      = Except.ok { m_itr := NodeRef.node (k + 1) } := by
  simp only [ForwardIterator.increment]
  rw [follow_chainOf a xs k (Nat.le_of_lt hk)]
  simp only [chainOf_drop_live xs k hk]

theorem advance_chainOf (a : Option U) (xs : List U) (n k : Nat) (hk : k + n ≤ xs.length) :
    ForwardIterator.advance (Node.mk a (chainOf xs)) { m_itr := NodeRef.node k } n
      = Except.ok { m_itr := NodeRef.node (k + n) } := by
  induction n generalizing k with
  | zero => simp [ForwardIterator.advance]
  | succ n ih =>
    simp only [ForwardIterator.advance]
    rw [increment_chainOf a xs k (by omega)]
    simp only
    rw [ih (k + 1) (by omega)]
    congr 3
    omega

theorem update_insert_back_chainOf (v : U) (a : Option U) (xs : List U) (k : Nat)
    (hk : k ≤ xs.length) :
    (Node.mk a (chainOf xs)).update (fun n => Except.ok (n.insert_back v)) k
      = Except.ok { m_value := a, m_next := chainOf (xs.take k ++ v :: xs.drop k) } := by
  induction k generalizing a xs with
  | zero => simp [Node.update, Node.insert_back, Node.ofValue, Node.toLink, chainOf]
  | succ k ih =>
    cases xs with
    | nil => simp at hk
    | cons x xs =>
      have hk2 : k ≤ xs.length := by simpa using hk
      simp only [Node.update, chainOf]
      rw [ih (some x) xs hk2]
      simp [Node.toLink, chainOf]

theorem update_insert_front_chainOf (v : U) (a : Option U) (xs : List U) (k : Nat)
    (hk : k < xs.length) :
    (Node.mk a (chainOf xs)).update (fun n => Except.ok (n.insert_front v)) (k + 1)
      = Except.ok { m_value := a, m_next := chainOf (xs.take k ++ v :: xs.drop k) } := by
  induction k generalizing a xs with
  | zero =>
    cases xs with
    | nil => simp at hk
    | cons x xs => simp [Node.update, Node.insert_front, Node.toLink, chainOf]
  | succ k ih =>
    cases xs with
    | nil => simp at hk
    | cons x xs =>
      have hk2 : k < xs.length := by simpa using hk
      have h := ih (some x) xs hk2
      simp only [Node.update, chainOf] at h ⊢
      rw [h]
      simp [Node.toLink, chainOf]

theorem deref_chainOf (a : Option U) (xs : List U) (k : Nat) (hk : k < xs.length) :
    ForwardIterator.deref (Node.mk a (chainOf xs)) { m_itr := NodeRef.node (k + 1) }
      = Except.ok (xs.get ⟨k, hk⟩) := by
  simp only [ForwardIterator.deref]
  rw [follow_chainOf a xs (k + 1) (by omega)]
  simp [payloadAt, List.getD_eq_getElem?_getD, hk]

/-! ## Lemmas on well-formed lists -/

theorem holds_ofList (xs : List U) : (LinkedList.ofList xs).Holds xs :=
  ⟨rfl, rfl⟩

theorem head_eq_of_holds {l : LinkedList U} {xs : List U} (h : l.Holds xs) :
    l.m_head = Node.mk l.m_head.m_value (chainOf xs) := by
  rw [← h.1]

theorem at_of_holds {l : LinkedList U} {xs : List U} (h : l.Holds xs) (i : Nat)
    (hi : i < xs.length) : l.at (i : Int) = Except.ok (xs.get ⟨i, hi⟩) := by
  have hsz : l.m_size > (i : Int) := by rw [h.2]; exact_mod_cast hi
  have hn : ((i : Int) + 1).toNat = i + 1 := by omega
  simp only [LinkedList.at, hsz, if_true, hn, ForwardIterator.ofHead]
  rw [head_eq_of_holds h, advance_chainOf _ xs (i + 1) 0 (by omega)]
  simp only [Nat.zero_add]
  exact deref_chainOf _ xs i hi

theorem insert_back_of_holds {l : LinkedList U} {xs : List U} (h : l.Holds xs) (v : U)
    (p : Int) (hp : p < (xs.length : Int)) :
    l.insert_back v p = Outcome.returned
      { m_head := { m_value := l.m_head.m_value,
                    m_next := chainOf (xs.take (p + 1).toNat ++ v :: xs.drop (p + 1).toNat) },
        m_size := l.m_size + 1 } := by
  have hsz : l.m_size > p := by rw [h.2]; exact hp
  have hk : (p + 1).toNat ≤ xs.length := by omega
  simp only [LinkedList.insert_back, hsz, if_true, ForwardIterator.ofHead]
  rw [head_eq_of_holds h, advance_chainOf _ xs (p + 1).toNat 0 (by omega)]
  simp only [Nat.zero_add, ForwardIterator.insert_back, ForwardIterator.call]
  rw [update_insert_back_chainOf v _ xs _ hk]

theorem insert_front_of_holds {l : LinkedList U} {xs : List U} (h : l.Holds xs) (v : U)
    (k : Nat) (hk : k < xs.length) :
    l.insert_front v (k : Int) = Outcome.returned
      { m_head := { m_value := l.m_head.m_value,
                    m_next := chainOf (xs.take k ++ v :: xs.drop k) },
        m_size := l.m_size + 1 } := by
  have hsz : l.m_size > (k : Int) := by rw [h.2]; exact_mod_cast hk
  have hn : ((k : Int) + 1).toNat = k + 1 := by omega
  simp only [LinkedList.insert_front, hsz, if_true, hn, ForwardIterator.ofHead]
  rw [head_eq_of_holds h, advance_chainOf _ xs (k + 1) 0 (by omega)]
  simp only [Nat.zero_add, ForwardIterator.insert_front, ForwardIterator.call]
  rw [update_insert_front_chainOf v _ xs k hk]

theorem fill_chainOf (v : U) (a : Option U) (count j : Nat) :
    LinkedList.fill v (Node.mk a (chainOf (List.replicate j v))) { m_itr := NodeRef.node j } count
      = Except.ok (Node.mk a (chainOf (List.replicate (j + count) v))) := by
  induction count generalizing j with
  | zero => simp [LinkedList.fill]
  | succ count ih =>
    have hins : ForwardIterator.insert_back (Node.mk a (chainOf (List.replicate j v)))
        { m_itr := NodeRef.node j } v
        = Except.ok (Node.mk a (chainOf (List.replicate (j + 1) v))) := by
      simp only [ForwardIterator.insert_back, ForwardIterator.call]
      rw [update_insert_back_chainOf v a _ j (by simp)]
      simp [List.replicate_succ']
    simp only [LinkedList.fill, hins]
    rw [increment_chainOf a _ j (by simp)]
    simp only
    rw [ih (j + 1)]
    congr 4
    omega

theorem sized_of_nonneg (n : Nat) (v : U) :
    LinkedList.sized (n : Int) v = Outcome.returned (LinkedList.ofList (List.replicate n v)) := by
  cases n with
  | zero => simp [LinkedList.sized, LinkedList.ofList, Node.default, chainOf]
  | succ n =>
    have hne : ((n + 1 : Nat) : Int) ≠ 0 := by omega
    have h : LinkedList.fill v (Node.mk none Link.nullptr) { m_itr := NodeRef.node 0 } (n + 1)
        = Except.ok (Node.mk none (chainOf (List.replicate (n + 1) v))) := by
      have h0 := fill_chainOf v none (n + 1) 0
      rw [Nat.zero_add] at h0
      exact h0
    simp only [LinkedList.sized, hne, ne_eq, not_false_eq_true, if_true, Int.toNat_ofNat,
      Node.default, ForwardIterator.ofHead, h, LinkedList.ofList, List.length_replicate]

theorem getElem_opt_splice_lt (xs : List U) (v : U) (k i : Nat) (hk : k ≤ xs.length) (hi : i < k) :
    (xs.take k ++ v :: xs.drop k)[i]? = xs[i]? := by
  rw [List.getElem?_append_left (by simp; omega)]
  simp [List.getElem?_take, hi]

theorem getElem_opt_splice_eq (xs : List U) (v : U) (k : Nat) (hk : k ≤ xs.length) :
    (xs.take k ++ v :: xs.drop k)[k]? = some v := by
  rw [List.getElem?_append_right (by simp)]
  simp [Nat.min_eq_left hk]

theorem getElem_opt_splice_gt (xs : List U) (v : U) (k i : Nat) (hk : k ≤ xs.length) (hi : k ≤ i) :
    (xs.take k ++ v :: xs.drop k)[i + 1]? = xs[i]? := by
  rw [List.getElem?_append_right (by simp; omega)]
  simp only [List.length_take, Nat.min_eq_left hk]
  have : i + 1 - k = (i - k) + 1 := by omega
  rw [this, List.getElem?_cons_succ, List.getElem?_drop]
  congr 1
  omega

theorem at_of_getElem_opt {l : LinkedList U} {xs : List U} (h : l.Holds xs) (i : Nat) (x : U)
    (hx : xs[i]? = some x) : l.at (i : Int) = Except.ok x := by
  obtain ⟨hi, rfl⟩ := List.getElem?_eq_some_iff.mp hx
  exact at_of_holds h i hi

theorem holds_splice {l : LinkedList U} {xs : List U} (h : l.Holds xs) (v : U) (k : Nat)
    (hk : k ≤ xs.length) :
    (LinkedList.mk (Node.mk l.m_head.m_value (chainOf (xs.take k ++ v :: xs.drop k)))
      (l.m_size + 1)).Holds (xs.take k ++ v :: xs.drop k) := by
  refine ⟨rfl, ?_⟩
  simp only [h.2, List.length_append, List.length_take, List.length_cons, List.length_drop,
    Nat.min_eq_left hk]
  omega

/-! ## The sized constructor -/

/-- C1: for every `n ≥ 0` and every value `v`, the sized constructor `List(n, v)` returns
a list with `size() == n` and `at(i) == v` for every `0 ≤ i < n`. -/
theorem sized_size_and_at (n : Int) (v : U) (hn : 0 ≤ n) :
    ∃ l : LinkedList U, LinkedList.sized n v = Outcome.returned l ∧ l.size = n ∧
      ∀ i : Int, 0 ≤ i → i < n → l.at i = Except.ok v := by
  obtain ⟨m, rfl⟩ := Int.eq_ofNat_of_zero_le hn
  refine ⟨LinkedList.ofList (List.replicate m v), sized_of_nonneg m v, ?_, ?_⟩
  · simp [LinkedList.size, LinkedList.ofList]
  · intro i hi0 him
    obtain ⟨j, rfl⟩ := Int.eq_ofNat_of_zero_le hi0
    have hj : j < m := by exact_mod_cast him
    have hx : (List.replicate m v)[j]? = some v := by
      simp [List.getElem?_replicate, hj]
    exact at_of_getElem_opt (holds_ofList _) j v hx

/-- Witness of C1: the list of the test `create_list_of_size`, `List(5, 0)`. -/
theorem sized_size_and_at_witness :
    (0 : Int) ≤ 5 ∧
    ∃ l : LinkedList Int, LinkedList.sized 5 0 = Outcome.returned l ∧ l.size = 5 ∧
      ∀ i : Int, 0 ≤ i → i < 5 → l.at i = Except.ok 0 :=
  ⟨by decide, sized_size_and_at 5 0 (by decide)⟩

/-! ## Insertion -/

/-- C2: for every well-formed list with contents `xs` (the empty one included) and every
value `v`, `push_back(v)` returns, `size()` grows by exactly 1, `at(size()-1)` is `v`
afterwards, every old element is read at its old position, and the contents are `xs`
followed by `v`. -/
theorem push_back_appends (l : LinkedList U) (xs : List U) (v : U) (h : l.Holds xs) :
    ∃ l' : LinkedList U, l.push_back v = Outcome.returned l' ∧ l'.size = l.size + 1 ∧
      l'.at (l'.size - 1) = Except.ok v ∧
      (∀ i : Int, 0 ≤ i → i < l.size →
        ∃ x, l.at i = Except.ok x ∧ l'.at i = Except.ok x) ∧
      l'.Holds (xs ++ [v]) := by
  have hk : (l.m_size - 1 + 1).toNat = xs.length := by rw [h.2]; omega
  have hrun := insert_back_of_holds h v (l.m_size - 1) (by rw [h.2]; omega)
  have hh := holds_splice h v xs.length (Nat.le_refl _)
  rw [hk] at hrun
  simp only [List.take_length, List.drop_length] at hrun hh
  refine ⟨_, hrun, rfl, ?_, ?_, hh⟩
  · have hlast : (xs ++ [v])[xs.length]? = some v := by simp
    have := at_of_getElem_opt hh xs.length v hlast
    simpa [LinkedList.size, h.2] using this
  · intro i hi0 hi
    obtain ⟨j, rfl⟩ := Int.eq_ofNat_of_zero_le hi0
    have hj : j < xs.length := by
      have : (j : Int) < (xs.length : Int) := by rw [← h.2]; exact hi
      exact_mod_cast this
    refine ⟨xs.get ⟨j, hj⟩, at_of_holds h j hj, ?_⟩
    apply at_of_getElem_opt hh j
    rw [List.getElem?_append_left hj]
    simp [List.getElem?_eq_getElem hj]

/-- Witness of C2: the test `push_back` (`push_back(0)` on a list of size 0), and
`push_back(3)` on the list `[1, 2]`. -/
theorem push_back_appends_witness :
    ((LinkedList.empty : LinkedList Int).Holds [] ∧
      ∃ l' : LinkedList Int, LinkedList.empty.push_back 0 = Outcome.returned l' ∧
        l'.size = (LinkedList.empty : LinkedList Int).size + 1 ∧
        l'.at (l'.size - 1) = Except.ok 0 ∧
        (∀ i : Int, 0 ≤ i → i < (LinkedList.empty : LinkedList Int).size →
          ∃ x, (LinkedList.empty : LinkedList Int).at i = Except.ok x ∧
            l'.at i = Except.ok x) ∧
        l'.Holds ([] ++ [0])) ∧
    ((LinkedList.ofList [1, 2] : LinkedList Int).Holds [1, 2] ∧
      ∃ l' : LinkedList Int, (LinkedList.ofList [1, 2]).push_back 3 = Outcome.returned l' ∧
        l'.size = (LinkedList.ofList [1, 2] : LinkedList Int).size + 1 ∧
        l'.at (l'.size - 1) = Except.ok 3 ∧
        (∀ i : Int, 0 ≤ i → i < (LinkedList.ofList [1, 2] : LinkedList Int).size →
          ∃ x, (LinkedList.ofList [1, 2] : LinkedList Int).at i = Except.ok x ∧
            l'.at i = Except.ok x) ∧
        l'.Holds ([1, 2] ++ [3])) :=
  ⟨⟨⟨rfl, rfl⟩, push_back_appends LinkedList.empty [] 0 ⟨rfl, rfl⟩⟩,
    ⟨⟨rfl, rfl⟩, push_back_appends (LinkedList.ofList [1, 2]) [1, 2] 3 ⟨rfl, rfl⟩⟩⟩

/-- C5: for every well-formed list, value `v` and position `0 ≤ p < size()`,
`insert_front(v, p)` returns, `size()` grows by exactly 1, `at(p)` is `v` afterwards and
`at(p+1)` is the element that was read at `p` before the call. -/
theorem insert_front_at (l : LinkedList U) (xs : List U) (v : U) (p : Int)
    (h : l.Holds xs) (hp0 : 0 ≤ p) (hp : p < l.size) :
    ∃ (l' : LinkedList U) (x : U), l.insert_front v p = Outcome.returned l' ∧
      l'.size = l.size + 1 ∧ l'.at p = Except.ok v ∧
      l.at p = Except.ok x ∧ l'.at (p + 1) = Except.ok x := by
  obtain ⟨k, rfl⟩ := Int.eq_ofNat_of_zero_le hp0
  have hk : k < xs.length := by
    have : (k : Int) < (xs.length : Int) := by rw [← h.2]; exact hp
    exact_mod_cast this
  have hh := holds_splice h v k (Nat.le_of_lt hk)
  refine ⟨_, xs.get ⟨k, hk⟩, insert_front_of_holds h v k hk, rfl, ?_, at_of_holds h k hk, ?_⟩
  · exact at_of_getElem_opt hh k v (getElem_opt_splice_eq xs v k (Nat.le_of_lt hk))
  · have := at_of_getElem_opt hh (k + 1) (xs.get ⟨k, hk⟩)
      (by rw [getElem_opt_splice_gt xs v k k (Nat.le_of_lt hk) (Nat.le_refl _)]
          simp [List.getElem?_eq_getElem hk])
    simpa using this

/-- Witness of C5: the scenario `List(5, 0)`, `insert_front(1, 4)`: size 6, `at(4) == 1`,
`at(5) == 0`. -/
theorem insert_front_at_witness :
    LinkedList.sized 5 (0 : Int) = Outcome.returned (LinkedList.ofList [0, 0, 0, 0, 0]) ∧
    (LinkedList.ofList [0, 0, 0, 0, 0] : LinkedList Int).Holds [0, 0, 0, 0, 0] ∧
    (0 : Int) ≤ 4 ∧ 4 < (LinkedList.ofList [0, 0, 0, 0, 0] : LinkedList Int).size ∧
    (∃ (l' : LinkedList Int) (x : Int),
      (LinkedList.ofList [0, 0, 0, 0, 0]).insert_front 1 4 = Outcome.returned l' ∧
      l'.size = (LinkedList.ofList [0, 0, 0, 0, 0] : LinkedList Int).size + 1 ∧
      l'.at 4 = Except.ok 1 ∧
      (LinkedList.ofList [0, 0, 0, 0, 0]).at 4 = Except.ok x ∧ l'.at (4 + 1) = Except.ok x) ∧
    (LinkedList.ofList [0, 0, 0, 0, 0] : LinkedList Int).insert_front 1 4
      = Outcome.returned (LinkedList.ofList [0, 0, 0, 0, 1, 0]) ∧
    (LinkedList.ofList [0, 0, 0, 0, 1, 0] : LinkedList Int).size = 6 ∧
    (LinkedList.ofList [0, 0, 0, 0, 1, 0] : LinkedList Int).at 4 = Except.ok 1 ∧
    (LinkedList.ofList [0, 0, 0, 0, 1, 0] : LinkedList Int).at 5 = Except.ok 0 :=
  ⟨rfl, ⟨rfl, rfl⟩, by decide, by decide,
    insert_front_at (LinkedList.ofList [0, 0, 0, 0, 0]) [0, 0, 0, 0, 0] 1 4 ⟨rfl, rfl⟩
      (by decide) (by decide),
    rfl, rfl, rfl, rfl⟩

/-- C6: for every well-formed list, value `v` and position `0 ≤ p < size()`,
`insert_back(v, p)` returns, `size()` grows by exactly 1, `at(p+1)` is `v` afterwards,
`at(i)` is unchanged for `i ≤ p`, and the element formerly at `i > p` is read at `i+1`. -/
theorem insert_back_after (l : LinkedList U) (xs : List U) (v : U) (p : Int)
    (h : l.Holds xs) (hp0 : 0 ≤ p) (hp : p < l.size) :
    ∃ l' : LinkedList U, l.insert_back v p = Outcome.returned l' ∧
      l'.size = l.size + 1 ∧ l'.at (p + 1) = Except.ok v ∧
      (∀ i : Int, 0 ≤ i → i ≤ p → ∃ x, l.at i = Except.ok x ∧ l'.at i = Except.ok x) ∧
      (∀ i : Int, p < i → i < l.size →
        ∃ x, l.at i = Except.ok x ∧ l'.at (i + 1) = Except.ok x) := by
  obtain ⟨k, rfl⟩ := Int.eq_ofNat_of_zero_le hp0
  have hk : k < xs.length := by
    have : (k : Int) < (xs.length : Int) := by rw [← h.2]; exact hp
    exact_mod_cast this
  have hn : ((k : Int) + 1).toNat = k + 1 := by omega
  have hrun := insert_back_of_holds h v (k : Int) (by exact_mod_cast hk)
  rw [hn] at hrun
  have hh := holds_splice h v (k + 1) hk
  refine ⟨_, hrun, rfl, ?_, ?_, ?_⟩
  · have := at_of_getElem_opt hh (k + 1) v (getElem_opt_splice_eq xs v (k + 1) hk)
    simpa using this
  · intro i hi0 hik
    obtain ⟨j, rfl⟩ := Int.eq_ofNat_of_zero_le hi0
    have hj : j < k + 1 := by omega
    have hjx : j < xs.length := by omega
    refine ⟨xs.get ⟨j, hjx⟩, at_of_holds h j hjx, ?_⟩
    apply at_of_getElem_opt hh j
    rw [getElem_opt_splice_lt xs v (k + 1) j hk hj]
    simp [List.getElem?_eq_getElem hjx]
  · intro i hki hi
    obtain ⟨j, rfl⟩ := Int.eq_ofNat_of_zero_le (by omega : 0 ≤ i)
    have hjx : j < xs.length := by
      have : (j : Int) < (xs.length : Int) := by rw [← h.2]; exact hi
      exact_mod_cast this
    have hj : k + 1 ≤ j := by omega
    refine ⟨xs.get ⟨j, hjx⟩, at_of_holds h j hjx, ?_⟩
    have := at_of_getElem_opt hh (j + 1) (xs.get ⟨j, hjx⟩)
      (by rw [getElem_opt_splice_gt xs v (k + 1) j hk hj]
          simp [List.getElem?_eq_getElem hjx])
    simpa using this

/-- Witness of C6: the test `insert_back`, `insert_back(1, 4)` on `List(5, 0)`: size 6 and
`at(5) == 1`. -/
theorem insert_back_after_witness :
    (LinkedList.ofList [0, 0, 0, 0, 0] : LinkedList Int).Holds [0, 0, 0, 0, 0] ∧
    (0 : Int) ≤ 4 ∧ 4 < (LinkedList.ofList [0, 0, 0, 0, 0] : LinkedList Int).size ∧
    ∃ l' : LinkedList Int,
      (LinkedList.ofList [0, 0, 0, 0, 0]).insert_back 1 4 = Outcome.returned l' ∧
      l'.size = (LinkedList.ofList [0, 0, 0, 0, 0] : LinkedList Int).size + 1 ∧
      l'.at (4 + 1) = Except.ok 1 ∧
      (∀ i : Int, 0 ≤ i → i ≤ 4 →
        ∃ x, (LinkedList.ofList [0, 0, 0, 0, 0]).at i = Except.ok x ∧ l'.at i = Except.ok x) ∧
      (∀ i : Int, 4 < i → i < (LinkedList.ofList [0, 0, 0, 0, 0] : LinkedList Int).size →
        ∃ x, (LinkedList.ofList [0, 0, 0, 0, 0]).at i = Except.ok x ∧
          l'.at (i + 1) = Except.ok x) :=
  ⟨⟨rfl, rfl⟩, by decide, by decide,
    insert_back_after (LinkedList.ofList [0, 0, 0, 0, 0]) [0, 0, 0, 0, 0] 1 4 ⟨rfl, rfl⟩
      (by decide) (by decide)⟩

/-! ## Positions beyond the end -/

/-- C7: for every list object and every position `p ≥ size()`, `at(p)` stops on the
assertion "Cannot read element beyond the end of a list"; in particular `at(size())`
does, while `at(size()-1)` returns a value on a non-empty well-formed list. -/
theorem at_beyond_end (l : LinkedList U) (p : Int) (hp : l.size ≤ p) :
    l.at p = Except.error (Fault.assertion "Cannot read element beyond the end of a list") ∧
    l.at l.size
      = Except.error (Fault.assertion "Cannot read element beyond the end of a list") ∧
    ∀ xs : List U, l.Holds xs → xs ≠ [] → ∃ x, l.at (l.size - 1) = Except.ok x := by
  have hnot : ∀ q : Int, l.size ≤ q → ¬ (l.m_size > q) := by
    intro q hq
    simp only [LinkedList.size] at hq
    omega
  refine ⟨?_, ?_, ?_⟩
  · simp only [LinkedList.at, hnot p hp, if_false]
  · simp only [LinkedList.at, hnot l.size (Int.le_refl _), if_false]
  · intro xs h hne
    have hpos : 0 < xs.length := List.length_pos.mpr hne
    have hlt : xs.length - 1 < xs.length := by omega
    refine ⟨xs.get ⟨xs.length - 1, hlt⟩, ?_⟩
    have := at_of_holds h (xs.length - 1) hlt
    have hc : ((xs.length - 1 : Nat) : Int) = l.size - 1 := by
      simp only [LinkedList.size, h.2]
      omega
    rw [hc] at this
    exact this

/-- Witness of C7: the test `read_from_beyond_range`, `at(6)` on a list of five elements;
`at(5)` stops in the same way and `at(4)` returns a value. -/
theorem at_beyond_end_witness :
    (LinkedList.ofList [0, 0, 0, 0, 0] : LinkedList Int).size ≤ 6 ∧
    (LinkedList.ofList [0, 0, 0, 0, 0] : LinkedList Int).at 6
      = Except.error (Fault.assertion "Cannot read element beyond the end of a list") ∧
    (LinkedList.ofList [0, 0, 0, 0, 0] : LinkedList Int).at
        (LinkedList.ofList [0, 0, 0, 0, 0] : LinkedList Int).size
      = Except.error (Fault.assertion "Cannot read element beyond the end of a list") ∧
    ∃ x, (LinkedList.ofList [0, 0, 0, 0, 0] : LinkedList Int).at
      ((LinkedList.ofList [0, 0, 0, 0, 0] : LinkedList Int).size - 1) = Except.ok x :=
  have h := at_beyond_end (LinkedList.ofList [0, 0, 0, 0, 0] : LinkedList Int) 6 (by decide)
  ⟨by decide, h.1, h.2.1, h.2.2 [0, 0, 0, 0, 0] ⟨rfl, rfl⟩ (by decide)⟩

/-- C8: for every list object, value `v` and position `p ≥ size()`, `insert_back(v, p)`
and `insert_front(v, p)` each stop on the assertion "Cannot insert element beyond the end
of a list" with the chain and the size counter as they were. -/
theorem insert_beyond_end (l : LinkedList U) (v : U) (p : Int) (hp : l.size ≤ p) :
    l.insert_back v p = Outcome.aborted
      (Fault.assertion "Cannot insert element beyond the end of a list") l ∧
    l.insert_front v p = Outcome.aborted
      (Fault.assertion "Cannot insert element beyond the end of a list") l := by
  have hnot : ¬ (l.m_size > p) := by
    simp only [LinkedList.size] at hp
    omega
  constructor
  · simp only [LinkedList.insert_back, hnot, if_false]
  · simp only [LinkedList.insert_front, hnot, if_false]

/-- Witness of C8: the test `insert_back`, position 6 on a list of five elements. -/
theorem insert_beyond_end_witness :
    (LinkedList.ofList [0, 0, 0, 0, 0] : LinkedList Int).size ≤ 6 ∧
    (LinkedList.ofList [0, 0, 0, 0, 0] : LinkedList Int).insert_back 1 6 = Outcome.aborted
      (Fault.assertion "Cannot insert element beyond the end of a list")
      (LinkedList.ofList [0, 0, 0, 0, 0]) ∧
    (LinkedList.ofList [0, 0, 0, 0, 0] : LinkedList Int).insert_front 1 6 = Outcome.aborted
      (Fault.assertion "Cannot insert element beyond the end of a list")
      (LinkedList.ofList [0, 0, 0, 0, 0]) :=
  ⟨by decide, insert_beyond_end (LinkedList.ofList [0, 0, 0, 0, 0]) 1 6 (by decide)⟩

/-! ## Removal -/

/-- C9: for every list object (non-empty or not) and every position `p ≥ size()`,
`remove_at(p)` stops on the assertion "Cannot remove element beyond the end of a list"
with the list as it was: nothing is removed. -/
theorem remove_at_beyond_end (l : LinkedList U) (p : Int) (hp : l.size ≤ p) :
    l.remove_at p = Outcome.aborted
      (Fault.assertion "Cannot remove element beyond the end of a list") l := by
  have hnot : ¬ (l.m_size > p) := by
    simp only [LinkedList.size] at hp
    omega
  simp only [LinkedList.remove_at, hnot, if_false]

/-- Witness of C9: the test `remove_at`, position 5 on a list of five elements. -/
theorem remove_at_beyond_end_witness :
    (LinkedList.ofList [0, 0, 0, 0, 0] : LinkedList Int).size ≤ 5 ∧
    (LinkedList.ofList [0, 0, 0, 0, 0] : LinkedList Int).remove_at 5 = Outcome.aborted
      (Fault.assertion "Cannot remove element beyond the end of a list")
      (LinkedList.ofList [0, 0, 0, 0, 0]) :=
  ⟨by decide, remove_at_beyond_end (LinkedList.ofList [0, 0, 0, 0, 0]) 5 (by decide)⟩

/-- C10: `pop_back()` on a list object whose size is 0 stops on the assertion
"Cannot remove element from an empty list", and not on the out-of-range assertion of
`remove_at`. -/
theorem pop_back_empty (l : LinkedList U) (h : l.size = 0) :
    l.pop_back = Outcome.aborted
      (Fault.assertion "Cannot remove element from an empty list") l ∧
    l.pop_back ≠ Outcome.aborted
      (Fault.assertion "Cannot remove element beyond the end of a list") l := by
  have hz : l.m_size = 0 := h
  have hrun : l.pop_back = Outcome.aborted
      (Fault.assertion "Cannot remove element from an empty list") l := by
    simp [LinkedList.pop_back, LinkedList.remove_at, hz]
  refine ⟨hrun, ?_⟩
  rw [hrun]
  intro heq
  injection heq with hf _
  injection hf with hs
  exact absurd hs (by decide)

/-- Witness of C10: the test `pop_back`, `pop_back()` on a freshly built empty list. -/
theorem pop_back_empty_witness :
    (LinkedList.empty : LinkedList Int).size = 0 ∧
    (LinkedList.empty : LinkedList Int).pop_back = Outcome.aborted
      (Fault.assertion "Cannot remove element from an empty list") LinkedList.empty ∧
    (LinkedList.empty : LinkedList Int).pop_back ≠ Outcome.aborted
      (Fault.assertion "Cannot remove element beyond the end of a list") LinkedList.empty :=
  ⟨rfl, pop_back_empty LinkedList.empty rfl⟩

/-- C3, evaluated on the list `[10, 20, 30]` with `remove_at(1)`: the walk takes no step,
so `remove_back` runs on the sentinel and deletes the node of position 0; the destructor
of that node deletes the two nodes behind it as well, and the sentinel is left with a
pointer to a deleted node.  Reading position 0 or 1 afterwards uses a deleted node,
where the removal of position 1 would give 10 and 30. -/
theorem remove_at_one_of_three :
    ForwardIterator.ofHead.advance (LinkedList.ofList [10, 20, 30] : LinkedList Int).m_head
        ((1 : Int) - 2 + 1).toNat = Except.ok { m_itr := NodeRef.node 0 } ∧
    (LinkedList.ofList [10, 20, 30] : LinkedList Int).remove_at 1
      = Outcome.returned { m_head := { m_value := none, m_next := Link.dangling }, m_size := 2 } ∧
    (LinkedList.mk (Node.mk none Link.dangling) 2 : LinkedList Int).at 0
      = Except.error Fault.useAfterFree ∧
    (LinkedList.mk (Node.mk none Link.dangling) 2 : LinkedList Int).at 1
      = Except.error Fault.useAfterFree :=
  ⟨rfl, rfl, rfl, rfl⟩

/-- C4, evaluated on the list `[1, 2]` with `pop_back()`: it is `remove_at(1)`, whose walk
takes no step, so the node of position 0 is deleted, and the last node with it through
the destructor.  Reading position 0 afterwards uses a deleted node, where the removal of
the last element would give 1. -/
theorem pop_back_of_two :
    (LinkedList.ofList [1, 2] : LinkedList Int).at 0 = Except.ok 1 ∧
    (LinkedList.ofList [1, 2] : LinkedList Int).pop_back
      = Outcome.returned { m_head := { m_value := none, m_next := Link.dangling }, m_size := 1 } ∧
    (LinkedList.mk (Node.mk none Link.dangling) 1 : LinkedList Int).at 0
      = Except.error Fault.useAfterFree :=
  ⟨rfl, rfl, rfl⟩

/-! ## Lemmas on removal -/

theorem delete_live_chainOf (a : Option U) (xs : List U) :
    Link.delete (Link.live a (chainOf xs)) = Except.ok () := by
  induction xs generalizing a with
  | nil => simp [Link.delete, chainOf]
  | cons x xs ih =>
    have h := ih (some x)
    simp only [chainOf] at h ⊢
    rw [Link.delete]
    · exact h
    · intro hnull
      cases hnull

theorem remove_back_chainOf (a : Option U) (x : U) (xs : List U) :
    Node.remove_back (Node.mk a (chainOf (x :: xs)))
      = Except.ok (Node.mk a (chainOf xs).afterDelete) := by
  simp only [Node.remove_back, chainOf]
  rw [delete_live_chainOf (some x) xs]

theorem update_remove_back_chainOf (a : Option U) (xs : List U) (k : Nat)
    (hk : k < xs.length) :
    (Node.mk a (chainOf xs)).update Node.remove_back k
      = Except.ok (Node.mk a (chainEnding (chainOf (xs.drop (k + 1))).afterDelete (xs.take k))) := by
  induction k generalizing a xs with
  | zero =>
    cases xs with
    | nil => simp at hk
    | cons x xs =>
      simp only [Node.update]
      rw [remove_back_chainOf]
      simp [chainEnding]
  | succ k ih =>
    cases xs with
    | nil => simp at hk
    | cons x xs =>
      have hk2 : k < xs.length := by simpa using hk
      simp only [Node.update, chainOf]
      rw [ih (some x) xs hk2]
      simp [Node.toLink, chainEnding]

theorem positionMinusTwo_of_ge (p : Int) (hlo : -2147483646 ≤ p) :
    LinkedList.positionMinusTwo p = p - 2 := by
  have hnot : ¬ (p - 2 < -2147483648) := by omega
  simp only [LinkedList.positionMinusTwo, hnot, if_false]

theorem remove_at_of_holds {l : LinkedList U} {xs : List U} (h : l.Holds xs) (p : Int)
    (hne : xs ≠ []) (hp : p < (xs.length : Int)) (hlo : -2147483646 ≤ p) :
    l.remove_at p = Outcome.returned
      { m_head := { m_value := l.m_head.m_value,
                    m_next := chainEnding (chainOf (xs.drop ((p - 2 + 1).toNat + 1))).afterDelete
                      (xs.take (p - 2 + 1).toNat) },
        m_size := l.m_size - 1 } := by
  have hpos : 0 < xs.length := List.length_pos.mpr hne
  have hsz : l.m_size > p := by rw [h.2]; exact hp
  have hnz : l.m_size ≠ 0 := by rw [h.2]; omega
  have hk : (p - 2 + 1).toNat < xs.length := by omega
  simp only [LinkedList.remove_at, hsz, hnz, if_true, ne_eq, not_false_eq_true,
    ForwardIterator.ofHead, positionMinusTwo_of_ge p hlo]
  rw [head_eq_of_holds h, advance_chainOf _ xs (p - 2 + 1).toNat 0 (by omega)]
  simp only [Nat.zero_add, ForwardIterator.remove_back, ForwardIterator.call]
  rw [update_remove_back_chainOf _ xs _ hk]

theorem nodeCount_chainOf (xs : List U) :
    (chainOf xs).nodeCount = Except.ok xs.length := by
  induction xs with
  | nil => rfl
  | cons x xs ih => simp [chainOf, Link.nodeCount, ih]

/-! ## Removal at the back -/

/-- C11: for every non-empty well-formed list, `pop_back()` returns and `size()` is
exactly one less afterwards. -/
theorem pop_back_size (l : LinkedList U) (xs : List U) (h : l.Holds xs) (hne : xs ≠ []) :
    ∃ l' : LinkedList U, l.pop_back = Outcome.returned l' ∧ l'.size = l.size - 1 := by
  have hp : l.m_size - 1 < (xs.length : Int) := by rw [h.2]; omega
  exact ⟨_, remove_at_of_holds h (l.m_size - 1) hne hp (by rw [h.2]; omega), rfl⟩

/-- Witness of C11: the test `pop_back`, `pop_back()` on the list left by `push_back(0)`. -/
theorem pop_back_size_witness :
    (LinkedList.ofList [0] : LinkedList Int).Holds [0] ∧ ([0] : List Int) ≠ [] ∧
    (∃ l' : LinkedList Int, (LinkedList.ofList [0]).pop_back = Outcome.returned l' ∧
      l'.size = (LinkedList.ofList [0] : LinkedList Int).size - 1) ∧
    (LinkedList.ofList [0] : LinkedList Int).pop_back = Outcome.returned LinkedList.empty ∧
    (LinkedList.empty : LinkedList Int).size = 0 :=
  ⟨⟨rfl, rfl⟩, by decide, pop_back_size (LinkedList.ofList [0]) [0] ⟨rfl, rfl⟩ (by decide),
    rfl, rfl⟩

/-- C12, evaluated on `List(3, 0)` followed by `pop_back()`: both calls return and
`size()` is 2, but only one node is left behind the sentinel and its `m_next` points to a
deleted node, so the walk from the sentinel never arrives at "no successor" and the
count of nodes is not `size()`. -/
theorem size_invariant_after_pop_back :
    LinkedList.sized 3 (0 : Int) = Outcome.returned (LinkedList.ofList [0, 0, 0]) ∧
    (LinkedList.ofList [0, 0, 0] : LinkedList Int).m_head.m_next.nodeCount = Except.ok 3 ∧
    (LinkedList.ofList [0, 0, 0] : LinkedList Int).pop_back = Outcome.returned
      { m_head := { m_value := none, m_next := Link.live (some 0) Link.dangling },
        m_size := 2 } ∧
    (LinkedList.mk (Node.mk none (Link.live (some 0) Link.dangling)) 2 : LinkedList Int).size
      = 2 ∧
    (Link.live (some (0 : Int)) Link.dangling).nodeCount = Except.error Fault.useAfterFree :=
  ⟨rfl, rfl, rfl, rfl, rfl⟩

/-- C13, evaluated on the list `[1]` with `push_back(2)` then `pop_back()`: the list is
not restored.  `pop_back()` is `remove_at(1)`, which deletes the node of position 0 and,
through its destructor, the pushed node; `at(0)`, which was 1, reads a deleted node.  On
the empty list the two calls do restore the list. -/
theorem push_back_pop_back_of_one :
    (LinkedList.ofList [1] : LinkedList Int).push_back 2
      = Outcome.returned (LinkedList.ofList [1, 2]) ∧
    (LinkedList.ofList [1, 2] : LinkedList Int).pop_back
      = Outcome.returned { m_head := { m_value := none, m_next := Link.dangling }, m_size := 1 } ∧
    (LinkedList.ofList [1] : LinkedList Int).at 0 = Except.ok 1 ∧
    (LinkedList.mk (Node.mk none Link.dangling) 1 : LinkedList Int).at 0
      = Except.error Fault.useAfterFree ∧
    (LinkedList.empty : LinkedList Int).push_back 0 = Outcome.returned (LinkedList.ofList [0]) ∧
    (LinkedList.ofList [0] : LinkedList Int).pop_back = Outcome.returned LinkedList.empty :=
  ⟨rfl, rfl, rfl, rfl, rfl, rfl⟩

/-- C14, on every node whose successor has a successor of its own: `remove_back` deletes
the successor together with all nodes behind it and leaves `m_next` pointing to a deleted
node; it does not hand the nodes behind the removed one over to the current node.  Only
when the successor is the last node is exactly one node deleted. -/
theorem remove_back_deletes_tail (a : Option U) (x y : U) (ys : List U) :
    Node.remove_back (Node.mk a (chainOf (x :: y :: ys)))
      = Except.ok (Node.mk a Link.dangling) ∧
    Node.remove_back (Node.mk a (chainOf (x :: y :: ys)))
      ≠ Except.ok (Node.mk a (chainOf (y :: ys))) ∧
    Node.remove_back (Node.mk a (chainOf [x])) = Except.ok (Node.mk a Link.nullptr) := by
  have h1 : Node.remove_back (Node.mk a (chainOf (x :: y :: ys)))
      = Except.ok (Node.mk a Link.dangling) := by
    rw [remove_back_chainOf]
    rfl
  refine ⟨h1, ?_, ?_⟩
  · rw [h1]
    intro heq
    injection heq with hn
    injection hn with _ hl
    simp [chainOf] at hl
  · rw [remove_back_chainOf]
    rfl

/-! ## Negative positions -/

theorem at_negative (l : LinkedList U) (p : Int) (hp : p < 0) (hs : p < l.m_size) :
    l.at p = ForwardIterator.ofHead.deref l.m_head := by
  have hsz : l.m_size > p := hs
  have hn : (p + 1).toNat = 0 := by omega
  simp only [LinkedList.at, hsz, if_true, hn, ForwardIterator.advance]

/-- C15 refuted: `at(-1)` passes the assertion, walks no step and reads the payload of
the sentinel.  On a list object whose sentinel payload holds 9, as left by
`insert_front(9, -1)` on the list `[1, 2, 3]`, the call returns 9. -/
theorem at_negative_returns_sentinel_payload :
    (LinkedList.ofList [1, 2, 3] : LinkedList Int).insert_front 9 (-1) = Outcome.returned
      { m_head := { m_value := some 9, m_next := Link.live none (chainOf [1, 2, 3]) },
        m_size := 4 } ∧
    (LinkedList.mk (Node.mk (some 9) (Link.live none (chainOf [1, 2, 3]))) 4 :
      LinkedList Int).at (-1) = Except.ok 9 ∧
    (LinkedList.mk (Node.mk (some 9) (chainOf [1, 2, 3])) 3 : LinkedList Int).Holds [1, 2, 3] ∧
    (LinkedList.mk (Node.mk (some 9) (chainOf [1, 2, 3])) 3 : LinkedList Int).at (-1)
      = Except.ok 9 :=
  ⟨rfl, rfl, ⟨rfl, rfl⟩, rfl⟩

/-- C15 as amended: on a well-formed list, `at(p)` stops on the assertion "Cannot read
element beyond the end of a list" when `p ≥ size()` and returns the element of position
`p` when `0 ≤ p < size()`; a negative `p` is not rejected: the walk takes no step and
`at(p)` is the dereference of the iterator at the sentinel, which yields the payload of
the sentinel when one has been written. -/
theorem at_by_range (l : LinkedList U) (xs : List U) (p : Int) (h : l.Holds xs) :
    (l.size ≤ p →
      l.at p = Except.error (Fault.assertion "Cannot read element beyond the end of a list")) ∧
    (0 ≤ p → p < l.size → ∃ x, xs[p.toNat]? = some x ∧ l.at p = Except.ok x) ∧
    (p < 0 → l.at p = ForwardIterator.ofHead.deref l.m_head) ∧
    (p < 0 → ∀ d, l.m_head.m_value = some d → l.at p = Except.ok d) := by
  have hsize : l.m_size = (xs.length : Int) := h.2
  refine ⟨?_, ?_, ?_, ?_⟩
  · intro hp
    have hnot : ¬ (l.m_size > p) := by
      simp only [LinkedList.size] at hp
      omega
    simp only [LinkedList.at, hnot, if_false]
  · intro hp0 hp
    obtain ⟨k, rfl⟩ := Int.eq_ofNat_of_zero_le hp0
    have hk : k < xs.length := by
      have : (k : Int) < (xs.length : Int) := by rw [← hsize]; exact hp
      exact_mod_cast this
    refine ⟨xs.get ⟨k, hk⟩, ?_, at_of_holds h k hk⟩
    simp [List.getElem?_eq_getElem hk]
  · intro hp
    exact at_negative l p hp (by rw [hsize]; omega)
  · intro hp d hd
    rw [at_negative l p hp (by rw [hsize]; omega)]
    simp only [ForwardIterator.deref, ForwardIterator.ofHead, Node.follow, hd]

/-- Witness of C15 as amended: the list `[1, 2, 3]` with sentinel payload 9, read at the
positions 3, 2 and -1. -/
theorem at_by_range_witness :
    (LinkedList.mk (Node.mk (some 9) (chainOf [1, 2, 3])) 3 : LinkedList Int).Holds [1, 2, 3] ∧
    (LinkedList.mk (Node.mk (some 9) (chainOf [1, 2, 3])) 3 : LinkedList Int).at 3
      = Except.error (Fault.assertion "Cannot read element beyond the end of a list") ∧
    (∃ x, ([1, 2, 3] : List Int)[(2 : Int).toNat]? = some x ∧
      (LinkedList.mk (Node.mk (some 9) (chainOf [1, 2, 3])) 3 : LinkedList Int).at 2
        = Except.ok x) ∧
    (LinkedList.mk (Node.mk (some 9) (chainOf [1, 2, 3])) 3 : LinkedList Int).at (-1)
      = Except.ok 9 :=
  ⟨⟨rfl, rfl⟩,
    (at_by_range (LinkedList.mk (Node.mk (some 9) (chainOf [1, 2, 3])) 3) [1, 2, 3] 3
      ⟨rfl, rfl⟩).1 (by decide),
    (at_by_range (LinkedList.mk (Node.mk (some 9) (chainOf [1, 2, 3])) 3) [1, 2, 3] 2
      ⟨rfl, rfl⟩).2.1 (by decide) (by decide),
    (at_by_range (LinkedList.mk (Node.mk (some 9) (chainOf [1, 2, 3])) 3) [1, 2, 3] (-1)
      ⟨rfl, rfl⟩).2.2.2 (by decide) 9 rfl⟩

/-- C16 refuted: `remove_at(-1)` on the list `[7]` returns and removes the element: the
list is left empty with size 0. -/
theorem remove_at_negative_removes :
    (LinkedList.ofList [7] : LinkedList Int).remove_at (-1)
      = Outcome.returned LinkedList.empty ∧
    (LinkedList.ofList [7] : LinkedList Int).remove_at (-1)
      ≠ Outcome.aborted (Fault.assertion "Cannot remove element beyond the end of a list")
          (LinkedList.ofList [7]) ∧
    (LinkedList.ofList [7] : LinkedList Int) ≠ LinkedList.empty := by
  refine ⟨rfl, ?_, by decide⟩
  intro heq
  cases heq

theorem increment_chainOf_last (a : Option U) (xs : List U) :
    ForwardIterator.increment (Node.mk a (chainOf xs)) { m_itr := NodeRef.node xs.length }
      = Except.ok ForwardIterator.default := by
  simp only [ForwardIterator.increment]
  rw [follow_chainOf a xs xs.length (Nat.le_refl _)]
  simp [chainOf, ForwardIterator.default]

theorem advance_add (m_head : Node U) (a b : Nat) (it : ForwardIterator) :
    ForwardIterator.advance m_head it (a + b)
      = match ForwardIterator.advance m_head it a with
        | Except.error e => Except.error e
        | Except.ok it' => ForwardIterator.advance m_head it' b := by
  induction a generalizing it with
  | zero => simp [ForwardIterator.advance]
  | succ a ih =>
    rw [Nat.succ_add]
    simp only [ForwardIterator.advance]
    cases it.increment m_head with
    | error e => rfl
    | ok it1 => exact ih it1

theorem advance_past_end (a : Option U) (xs : List U) (n : Nat) (hn : xs.length + 2 ≤ n) :
    ForwardIterator.advance (Node.mk a (chainOf xs)) ForwardIterator.ofHead n
      = Except.error (Fault.assertion "Out-of-bounds iterator increment!") := by
  obtain ⟨m, rfl⟩ : ∃ m, n = xs.length + (1 + (m + 1)) := ⟨n - xs.length - 2, by omega⟩
  rw [advance_add, ForwardIterator.ofHead, advance_chainOf a xs xs.length 0 (by omega)]
  simp only [Nat.zero_add]
  rw [advance_add]
  simp only [ForwardIterator.advance, increment_chainOf_last]
  rfl

theorem remove_at_underflow {l : LinkedList U} {xs : List U} (h : l.Holds xs) (q : Int)
    (hne : xs ≠ []) (hlo : -2147483648 ≤ q) (hhi : q < -2147483646)
    (hlen : xs.length < 2147483646) :
    l.remove_at q
      = Outcome.aborted (Fault.assertion "Out-of-bounds iterator increment!") l := by
  have hpos : 0 < xs.length := List.length_pos.mpr hne
  have hsz : l.m_size > q := by rw [h.2]; omega
  have hnz : l.m_size ≠ 0 := by rw [h.2]; omega
  have hwrap : LinkedList.positionMinusTwo q = q - 2 + 4294967296 := by
    have hlt : q - 2 < -2147483648 := by omega
    simp only [LinkedList.positionMinusTwo, hlt, if_true]
  simp only [LinkedList.remove_at, hsz, hnz, if_true, ne_eq, not_false_eq_true, hwrap]
  rw [head_eq_of_holds h, advance_past_end _ xs _ (by omega)]

/-- C16 as amended: for every non-empty well-formed list and every negative position
`p ≥ INT_MIN + 2`, no assertion rejects `p`: `remove_at(p)` takes no step from the
sentinel and does what `remove_at(0)` does, it returns and `size()` is one less; so on
such a list `remove_at(q)` with `q ≥ INT_MIN + 2` returns if and only if `q < size()`. -/
theorem remove_at_negative (l : LinkedList U) (xs : List U) (p : Int) (h : l.Holds xs)
    (hne : xs ≠ []) (hp : p < 0) (hlo : -2147483646 ≤ p) :
    l.remove_at p = l.remove_at 0 ∧
    (∃ l' : LinkedList U, l.remove_at p = Outcome.returned l' ∧ l'.size = l.size - 1) ∧
    ∀ q : Int, -2147483646 ≤ q →
      ((∃ l' : LinkedList U, l.remove_at q = Outcome.returned l') ↔ q < l.size) := by
  have hpos : 0 < xs.length := List.length_pos.mpr hne
  have hsize : l.m_size = (xs.length : Int) := h.2
  have hrun := remove_at_of_holds h p hne (by omega) hlo
  have hrun0 := remove_at_of_holds h 0 hne (by omega) (by omega)
  have hk : (p - 2 + 1).toNat = ((0 : Int) - 2 + 1).toNat := by omega
  refine ⟨?_, ⟨_, hrun, rfl⟩, ?_⟩
  · rw [hrun, hrun0, hk]
  · intro q hq0
    constructor
    · rintro ⟨l', hl'⟩
      by_contra hq
      have hnot : ¬ (l.m_size > q) := by
        simp only [LinkedList.size] at hq
        omega
      simp [LinkedList.remove_at, hnot] at hl'
    · intro hq
      exact ⟨_, remove_at_of_holds h q hne (by rw [← hsize]; exact hq) hq0⟩

/-- Witness of C16 as amended: `remove_at(-1)` and `remove_at(INT_MIN + 2)` on the list
`[7]`; at `INT_MIN`, where `position - 2` leaves the range of `int`, the walk runs off
the chain. -/
theorem remove_at_negative_witness :
    (LinkedList.ofList [7] : LinkedList Int).Holds [7] ∧ ([7] : List Int) ≠ [] ∧
    (-1 : Int) < 0 ∧ (-2147483646 : Int) ≤ -1 ∧
    ((LinkedList.ofList [7] : LinkedList Int).remove_at (-1)
        = (LinkedList.ofList [7] : LinkedList Int).remove_at 0 ∧
      (∃ l' : LinkedList Int, (LinkedList.ofList [7]).remove_at (-1) = Outcome.returned l' ∧
        l'.size = (LinkedList.ofList [7] : LinkedList Int).size - 1) ∧
      ∀ q : Int, -2147483646 ≤ q → ((∃ l' : LinkedList Int,
        (LinkedList.ofList [7]).remove_at q = Outcome.returned l') ↔
          q < (LinkedList.ofList [7] : LinkedList Int).size)) ∧
    (LinkedList.ofList [7] : LinkedList Int).remove_at (-2147483646)
      = Outcome.returned LinkedList.empty ∧
    (LinkedList.ofList [7] : LinkedList Int).remove_at (-2147483648)
      = Outcome.aborted (Fault.assertion "Out-of-bounds iterator increment!")
          (LinkedList.ofList [7]) :=
  ⟨⟨rfl, rfl⟩, by decide, by decide, by decide,
    remove_at_negative (LinkedList.ofList [7]) [7] (-1) ⟨rfl, rfl⟩ (by decide) (by decide)
      (by decide),
    rfl,
    remove_at_underflow (holds_ofList [7]) (-2147483648) (by decide) (by decide) (by decide)
      (by decide)⟩

/-! ## Removal from an empty list -/

/-- C17 refuted: `pop_front()` on the empty list stops on the out-of-range assertion of
`remove_at`, not on "Cannot remove element from an empty list". -/
theorem pop_front_empty_message :
    (LinkedList.empty : LinkedList Int).pop_front = Outcome.aborted
      (Fault.assertion "Cannot remove element beyond the end of a list") LinkedList.empty ∧
    (LinkedList.empty : LinkedList Int).pop_front ≠ Outcome.aborted
      (Fault.assertion "Cannot remove element from an empty list") LinkedList.empty ∧
    (LinkedList.empty : LinkedList Int).remove_at 0 ≠ Outcome.aborted
      (Fault.assertion "Cannot remove element from an empty list") LinkedList.empty := by
  decide

/-- C17 as amended: on a list object of size 0, `remove_at(p)` always stops and leaves
the list as it was, on "Cannot remove element beyond the end of a list" when `p ≥ 0`
(that assertion comes first) and on "Cannot remove element from an empty list" when
`p < 0`; hence `pop_front()` stops on the out-of-range message and `pop_back()` on the
empty-list message. -/
theorem remove_at_empty (l : LinkedList U) (p : Int) (h : l.size = 0) :
    (0 ≤ p → l.remove_at p = Outcome.aborted
      (Fault.assertion "Cannot remove element beyond the end of a list") l) ∧
    (p < 0 → l.remove_at p = Outcome.aborted
      (Fault.assertion "Cannot remove element from an empty list") l) ∧
    l.pop_front = Outcome.aborted
      (Fault.assertion "Cannot remove element beyond the end of a list") l ∧
    l.pop_back = Outcome.aborted
      (Fault.assertion "Cannot remove element from an empty list") l := by
  have hz : l.m_size = 0 := h
  refine ⟨?_, ?_, ?_, ?_⟩
  · intro hp
    have hnot : ¬ ((0 : Int) > p) := by omega
    simp [LinkedList.remove_at, hz, hnot]
  · intro hp
    simp [LinkedList.remove_at, hz, hp]
  · simp [LinkedList.pop_front, LinkedList.remove_at, hz]
  · simp [LinkedList.pop_back, LinkedList.remove_at, hz]

/-- Witness of C17 as amended: the empty list with the positions 2 and -2. -/
theorem remove_at_empty_witness :
    (LinkedList.empty : LinkedList Int).size = 0 ∧
    (LinkedList.empty : LinkedList Int).remove_at 2 = Outcome.aborted
      (Fault.assertion "Cannot remove element beyond the end of a list") LinkedList.empty ∧
    (LinkedList.empty : LinkedList Int).remove_at (-2) = Outcome.aborted
      (Fault.assertion "Cannot remove element from an empty list") LinkedList.empty ∧
    (LinkedList.empty : LinkedList Int).pop_front = Outcome.aborted
      (Fault.assertion "Cannot remove element beyond the end of a list") LinkedList.empty ∧
    (LinkedList.empty : LinkedList Int).pop_back = Outcome.aborted
      (Fault.assertion "Cannot remove element from an empty list") LinkedList.empty :=
  ⟨rfl, (remove_at_empty LinkedList.empty 2 rfl).1 (by decide),
    (remove_at_empty LinkedList.empty (-2) rfl).2.1 (by decide),
    (remove_at_empty LinkedList.empty 0 rfl).2.2.1,
    (remove_at_empty LinkedList.empty 0 rfl).2.2.2⟩

/-! ## Operations at the front -/

/-- C18, evaluated on the list `[1, 2]` with `push_front(9)`: the call is
`insert_back(9, 0)`, which splices 9 behind the node of position 0, so the contents are
`[1, 9, 2]` and `at(0)` is still 1; on the empty list the call stops on the assertion of
`insert_back`. -/
theorem push_front_of_two :
    (LinkedList.ofList [1, 2] : LinkedList Int).push_front 9
      = Outcome.returned (LinkedList.ofList [1, 9, 2]) ∧
    (LinkedList.ofList [1, 9, 2] : LinkedList Int).at 0 = Except.ok 1 ∧
    (LinkedList.ofList [1, 9, 2] : LinkedList Int).at 1 = Except.ok 9 ∧
    (LinkedList.ofList [1, 2] : LinkedList Int).push_front 9
      ≠ Outcome.returned (LinkedList.ofList [9, 1, 2]) ∧
    (LinkedList.empty : LinkedList Int).push_front 9 = Outcome.aborted
      (Fault.assertion "Cannot insert element beyond the end of a list") LinkedList.empty := by
  refine ⟨rfl, rfl, rfl, by decide, rfl⟩

/-- C19, evaluated on the list `[1, 2]`: `remove_at(0)` and `pop_front()` take no step
from the sentinel and run `remove_back` on it, and `size()` is one less; but the
destructor of the removed node deletes the node of position 1 as well, so `at(0)`
afterwards reads a deleted node where the old `at(1)` is 2. -/
theorem pop_front_of_two :
    ForwardIterator.ofHead.advance (LinkedList.ofList [1, 2] : LinkedList Int).m_head
        ((0 : Int) - 2 + 1).toNat = Except.ok ForwardIterator.ofHead ∧
    (LinkedList.ofList [1, 2] : LinkedList Int).remove_at 0
      = Outcome.returned { m_head := { m_value := none, m_next := Link.dangling }, m_size := 1 } ∧
    (LinkedList.ofList [1, 2] : LinkedList Int).pop_front
      = Outcome.returned { m_head := { m_value := none, m_next := Link.dangling }, m_size := 1 } ∧
    (LinkedList.ofList [1, 2] : LinkedList Int).at 1 = Except.ok 2 ∧
    (LinkedList.mk (Node.mk none Link.dangling) 1 : LinkedList Int).at 0
      = Except.error Fault.useAfterFree :=
  ⟨rfl, rfl, rfl, rfl, rfl⟩

/-- C20: for every well-formed list with contents `xs`, value `v` and position
`0 ≤ p < size()` (`p == 0` included), `insert_front(v, p)` returns a well-formed list
whose contents are `xs` with `v` inserted at index `p`; the payload of the sentinel is
untouched, `at(i)` is unchanged for `i < p`, and the element formerly at `i ≥ p` is read
at `i + 1`. -/
theorem insert_front_frame (l : LinkedList U) (xs : List U) (v : U) (p : Int)
    (h : l.Holds xs) (hp0 : 0 ≤ p) (hp : p < l.size) :
    ∃ l' : LinkedList U, l.insert_front v p = Outcome.returned l' ∧
      l'.Holds (xs.take p.toNat ++ v :: xs.drop p.toNat) ∧
      l'.m_head.m_value = l.m_head.m_value ∧
      (∀ i : Int, 0 ≤ i → i < p → ∃ x, l.at i = Except.ok x ∧ l'.at i = Except.ok x) ∧
      (∀ i : Int, p ≤ i → i < l.size →
        ∃ x, l.at i = Except.ok x ∧ l'.at (i + 1) = Except.ok x) := by
  obtain ⟨k, rfl⟩ := Int.eq_ofNat_of_zero_le hp0
  have hk : k < xs.length := by
    have : (k : Int) < (xs.length : Int) := by rw [← h.2]; exact hp
    exact_mod_cast this
  have hkle : k ≤ xs.length := Nat.le_of_lt hk
  have hh := holds_splice h v k hkle
  simp only [Int.toNat_ofNat]
  refine ⟨_, insert_front_of_holds h v k hk, hh, rfl, ?_, ?_⟩
  · intro i hi0 hik
    obtain ⟨j, rfl⟩ := Int.eq_ofNat_of_zero_le hi0
    have hj : j < k := by omega
    have hjx : j < xs.length := by omega
    refine ⟨xs.get ⟨j, hjx⟩, at_of_holds h j hjx, ?_⟩
    apply at_of_getElem_opt hh j
    rw [getElem_opt_splice_lt xs v k j hkle hj]
    simp [List.getElem?_eq_getElem hjx]
  · intro i hki hi
    obtain ⟨j, rfl⟩ := Int.eq_ofNat_of_zero_le (by omega : 0 ≤ i)
    have hjx : j < xs.length := by
      have : (j : Int) < (xs.length : Int) := by rw [← h.2]; exact hi
      exact_mod_cast this
    have hj : k ≤ j := by omega
    refine ⟨xs.get ⟨j, hjx⟩, at_of_holds h j hjx, ?_⟩
    have := at_of_getElem_opt hh (j + 1) (xs.get ⟨j, hjx⟩)
      (by rw [getElem_opt_splice_gt xs v k j hkle hj]
          simp [List.getElem?_eq_getElem hjx])
    simpa using this

/-- Witness of C20: `insert_front(9, 0)` on the list `[1, 2, 3]`, which gives
`[9, 1, 2, 3]`. -/
theorem insert_front_frame_witness :
    (LinkedList.ofList [1, 2, 3] : LinkedList Int).Holds [1, 2, 3] ∧
    (0 : Int) ≤ 0 ∧ 0 < (LinkedList.ofList [1, 2, 3] : LinkedList Int).size ∧
    (∃ l' : LinkedList Int, (LinkedList.ofList [1, 2, 3]).insert_front 9 0
        = Outcome.returned l' ∧
      l'.Holds (([1, 2, 3] : List Int).take (0 : Int).toNat
        ++ 9 :: ([1, 2, 3] : List Int).drop (0 : Int).toNat) ∧
      l'.m_head.m_value = (LinkedList.ofList [1, 2, 3] : LinkedList Int).m_head.m_value ∧
      (∀ i : Int, 0 ≤ i → i < 0 →
        ∃ x, (LinkedList.ofList [1, 2, 3]).at i = Except.ok x ∧ l'.at i = Except.ok x) ∧
      (∀ i : Int, 0 ≤ i → i < (LinkedList.ofList [1, 2, 3] : LinkedList Int).size →
        ∃ x, (LinkedList.ofList [1, 2, 3]).at i = Except.ok x ∧
          l'.at (i + 1) = Except.ok x)) ∧
    (LinkedList.ofList [1, 2, 3] : LinkedList Int).insert_front 9 0
      = Outcome.returned (LinkedList.ofList [9, 1, 2, 3]) :=
  ⟨⟨rfl, rfl⟩, by decide, by decide,
    insert_front_frame (LinkedList.ofList [1, 2, 3]) [1, 2, 3] 9 0 ⟨rfl, rfl⟩
      (by decide) (by decide),
    rfl⟩

/-! ## Construction -/

/-- C21: the default constructor yields an empty list: `size()` is 0, `is_init()` is
false and the sentinel has no successor. -/
theorem empty_is_empty :
    (LinkedList.empty : LinkedList U).size = 0 ∧
    (LinkedList.empty : LinkedList U).is_init = false ∧
    (LinkedList.empty : LinkedList U).m_head.m_next = Link.nullptr ∧
    (LinkedList.empty : LinkedList U).Holds [] :=
  ⟨rfl, rfl, rfl, ⟨rfl, rfl⟩⟩

/-- C22, evaluated on the list `[1, 2, 3]` with `insert_front(9, -1)`: the position is
accepted, the walk takes no step and `Node::insert_front` runs on the sentinel, whose
payload becomes 9; `at(-1)` afterwards returns that payload. -/
theorem insert_front_negative_writes_sentinel :
    (LinkedList.ofList [1, 2, 3] : LinkedList Int).m_head.m_value = none ∧
    ForwardIterator.ofHead.advance (LinkedList.ofList [1, 2, 3] : LinkedList Int).m_head
        ((-1 : Int) + 1).toNat = Except.ok ForwardIterator.ofHead ∧
    (LinkedList.ofList [1, 2, 3] : LinkedList Int).insert_front 9 (-1) = Outcome.returned
      { m_head := { m_value := some 9, m_next := Link.live none (chainOf [1, 2, 3]) },
        m_size := 4 } ∧
    (LinkedList.mk (Node.mk (some 9) (Link.live none (chainOf [1, 2, 3]))) 4 :
      LinkedList Int).at (-1) = Except.ok 9 :=
  ⟨rfl, rfl, rfl, rfl⟩

/-! ## The iterator and `remove_back` on their own -/

/-- C23: an unbound iterator (built by the default constructor, or advanced past the
last node) stops `operator++` on "Out-of-bounds iterator increment!" and `operator*` on
"Invalid iterator dereference!"; an iterator bound to a node of a null-terminated chain
is moved by `operator++` to the successor of that node, unbound after the last node, and
`operator*` returns the payload of its node. -/
theorem iterator_contract (m_head : Node U) (a : Option U) (xs : List U) :
    ForwardIterator.default.increment m_head
      = Except.error (Fault.assertion "Out-of-bounds iterator increment!") ∧
    ForwardIterator.default.deref m_head
      = Except.error (Fault.assertion "Invalid iterator dereference!") ∧
    (∀ k : Nat, k < xs.length →
      ForwardIterator.increment (Node.mk a (chainOf xs)) { m_itr := NodeRef.node k }
        = Except.ok { m_itr := NodeRef.node (k + 1) }) ∧
    ForwardIterator.increment (Node.mk a (chainOf xs)) { m_itr := NodeRef.node xs.length }
      = Except.ok ForwardIterator.default ∧
    ForwardIterator.ofHead.advance (Node.mk a (chainOf xs)) (xs.length + 1)
      = Except.ok ForwardIterator.default ∧
    (∀ (k : Nat) (hk : k < xs.length),
      ForwardIterator.deref (Node.mk a (chainOf xs)) { m_itr := NodeRef.node (k + 1) }
        = Except.ok (xs.get ⟨k, hk⟩)) ∧
    (∀ d : U, ForwardIterator.ofHead.deref (Node.mk (some d) (chainOf xs)) = Except.ok d) := by
  refine ⟨rfl, rfl, fun k hk => increment_chainOf a xs k hk, increment_chainOf_last a xs,
    ?_, fun k hk => deref_chainOf a xs k hk, fun d => rfl⟩
  have hadv := advance_chainOf a xs xs.length 0 (by omega)
  have hsplit : ∀ (n : Nat) (it : ForwardIterator) (h : Node U),
      ForwardIterator.advance h it (n + 1)
        = match ForwardIterator.advance h it n with
          | Except.error e => Except.error e
          | Except.ok it' => it'.increment h := by
    intro n
    induction n with
    | zero =>
      intro it h
      simp only [ForwardIterator.advance]
      cases it.increment h <;> rfl
    | succ n ih =>
      intro it h
      rw [ForwardIterator.advance]
      cases hinc : it.increment h with
      | error e => simp [ForwardIterator.advance, hinc]
      | ok it1 =>
        simp only
        rw [ih it1 h]
        conv_rhs => rw [ForwardIterator.advance]
        simp only [hinc]
  rw [hsplit, ForwardIterator.ofHead, hadv]
  simp only [Nat.zero_add]
  exact increment_chainOf_last a xs

/-- Witness of C23: the chain of the list `[4, 5]`, walked from the sentinel. -/
theorem iterator_contract_witness :
    ForwardIterator.default.increment (Node.mk none (chainOf [4, 5]) : Node Int)
      = Except.error (Fault.assertion "Out-of-bounds iterator increment!") ∧
    ForwardIterator.default.deref (Node.mk none (chainOf [4, 5]) : Node Int)
      = Except.error (Fault.assertion "Invalid iterator dereference!") ∧
    ForwardIterator.increment (Node.mk none (chainOf [4, 5]) : Node Int)
      { m_itr := NodeRef.node 1 } = Except.ok { m_itr := NodeRef.node (1 + 1) } ∧
    ForwardIterator.increment (Node.mk none (chainOf [4, 5]) : Node Int)
      { m_itr := NodeRef.node ([4, 5] : List Int).length } = Except.ok ForwardIterator.default ∧
    ForwardIterator.deref (Node.mk none (chainOf [4, 5]) : Node Int)
      { m_itr := NodeRef.node (1 + 1) } = Except.ok 5 :=
  have h := iterator_contract (Node.mk none (chainOf [4, 5]) : Node Int) none [4, 5]
  ⟨h.1, h.2.1, h.2.2.1 1 (by decide), h.2.2.2.1, h.2.2.2.2.2.1 1 (by decide)⟩

theorem update_remove_back_no_successor (m_head self : Node U) (depth : Nat)
    (hf : m_head.follow depth = Except.ok self) (hn : self.m_next = Link.nullptr) :
    m_head.update Node.remove_back depth
      = Except.error (Fault.assertion "Cannot remove nullptr node") := by
  induction depth generalizing m_head with
  | zero =>
    simp only [Node.follow, Except.ok.injEq] at hf
    subst hf
    simp only [Node.update, Node.remove_back, hn]
  | succ depth ih =>
    rw [Node.follow] at hf
    rw [Node.update]
    cases hm : m_head.m_next with
    | nullptr => simp [hm] at hf
    | dangling => simp [hm] at hf
    | live v nx =>
      simp only [hm] at hf
      simp only [ih _ hf]

theorem remove_at_aborted_unchanged (l l' : LinkedList U) (p : Int) (f : Fault)
    (h : l.remove_at p = Outcome.aborted f l') : l' = l := by
  unfold LinkedList.remove_at at h
  split at h
  · split at h
    · split at h
      · injection h with _ hl
        exact hl.symm
      · split at h
        · injection h with _ hl
          exact hl.symm
        · cases h
    · injection h with _ hl
      exact hl.symm
  · injection h with _ hl
    exact hl.symm

/-- C24: on a node without successor `Node::remove_back` stops on the assertion
"Cannot remove nullptr node"; so does `remove_back` through an iterator bound to such a
node, and a `remove_at` that stops leaves the list object as it was. -/
theorem remove_back_no_successor (self : Node U) (h : self.m_next = Link.nullptr) :
    self.remove_back = Except.error (Fault.assertion "Cannot remove nullptr node") ∧
    (∀ (m_head : Node U) (depth : Nat), m_head.follow depth = Except.ok self →
      ForwardIterator.remove_back m_head { m_itr := NodeRef.node depth }
        = Except.error (Fault.assertion "Cannot remove nullptr node")) ∧
    (∀ (l l' : LinkedList U) (p : Int) (f : Fault),
      l.remove_at p = Outcome.aborted f l' → l' = l) := by
  refine ⟨?_, ?_, remove_at_aborted_unchanged⟩
  · simp only [Node.remove_back, h]
  · intro m_head depth hf
    simp only [ForwardIterator.remove_back, ForwardIterator.call]
    exact update_remove_back_no_successor m_head self depth hf h

/-- Witness of C24: the sentinel of an empty chain, reached by `remove_at(-4)` on the
list object built by `List(-3, 0)`. -/
theorem remove_back_no_successor_witness :
    (Node.default : Node Int).m_next = Link.nullptr ∧
    (Node.default : Node Int).remove_back
      = Except.error (Fault.assertion "Cannot remove nullptr node") ∧
    ForwardIterator.remove_back (Node.default : Node Int) { m_itr := NodeRef.node 0 }
      = Except.error (Fault.assertion "Cannot remove nullptr node") ∧
    (LinkedList.mk Node.default (-3) : LinkedList Int).remove_at (-4) = Outcome.aborted
      (Fault.assertion "Cannot remove nullptr node") (LinkedList.mk Node.default (-3)) :=
  have h := remove_back_no_successor (Node.default : Node Int) rfl
  ⟨rfl, h.1, h.2.1 Node.default 0 rfl, rfl⟩

/-! ## Destruction -/

theorem deleteOn_live (v : Option U) (w : Option U) (next : Link U) (room : Nat) :
    Link.deleteOn (Link.live v (Link.live w next)) (room + 1)
      = match Link.deleteOn (Link.live w next) room with
        | Except.error e => Except.error e
        | Except.ok released => Except.ok (released ++ [v]) := by
  rw [Link.deleteOn]
  intro hnull
  cases hnull

theorem delete_of_deleteOn (p : Link U) (room : Nat) :
    (∀ released, Link.deleteOn p room = Except.ok released → Link.delete p = Except.ok ()) ∧
    (Link.deleteOn p room = Except.error Fault.doubleFree →
      Link.delete p = Except.error Fault.doubleFree) := by
  induction p generalizing room with
  | nullptr => exact ⟨fun _ _ => rfl, fun h => (nomatch h)⟩
  | dangling => exact ⟨fun _ h => (nomatch h), fun _ => rfl⟩
  | live v next ih =>
    cases room with
    | zero => exact ⟨fun _ h => (nomatch h), fun h => (nomatch h)⟩
    | succ room =>
      cases next with
      | nullptr => exact ⟨fun _ _ => rfl, fun h => (nomatch h)⟩
      | dangling => exact ⟨fun _ h => (nomatch h), fun _ => rfl⟩
      | live w next2 =>
        have hd : Link.delete (Link.live v (Link.live w next2))
            = Link.delete (Link.live w next2) := by
          rw [Link.delete]
          intro hnull
          cases hnull
        rw [deleteOn_live, hd]
        constructor
        · intro released h
          cases hrec : Link.deleteOn (Link.live w next2) room with
          | error e => simp [hrec] at h
          | ok r => exact (ih room).1 r hrec
        · intro h
          cases hrec : Link.deleteOn (Link.live w next2) room with
          | error e =>
            simp only [hrec, Except.error.injEq] at h
            subst h
            exact (ih room).2 hrec
          | ok r => simp [hrec] at h

theorem sized_of_neg (n : Int) (v : U) (hn : n < 0) :
    LinkedList.sized n v = Outcome.returned { m_head := Node.default, m_size := n } := by
  have hne : n ≠ 0 := by omega
  have ht : n.toNat = 0 := by omega
  simp only [LinkedList.sized, hne, ne_eq, not_false_eq_true, if_true, ht, LinkedList.fill]

/-- C26 refuted: the list object built by `List(-1, 0)` holds no element, its sentinel
has no successor, and `is_init()` is true. -/
theorem is_init_without_element :
    LinkedList.sized (-1) (0 : Int) = Outcome.returned { m_head := Node.default, m_size := -1 } ∧
    (LinkedList.mk Node.default (-1) : LinkedList Int).m_head.m_next = Link.nullptr ∧
    (LinkedList.mk Node.default (-1) : LinkedList Int).m_head.m_next.nodeCount = Except.ok 0 ∧
    (LinkedList.mk Node.default (-1) : LinkedList Int).is_init = true :=
  ⟨rfl, rfl, rfl, rfl⟩

/-- C26 as amended: in every state `is_init()` is `size() != 0`; it is false for the
default-constructed list and true for `List(n, v)` with `n > 0`; on a list object that
satisfies the size invariant, with contents `xs`, it is true exactly when the list holds
at least one element. -/
theorem is_init_iff (l : LinkedList U) (xs : List U) (n : Int) (v : U)
    (h : l.Holds xs) (hn : 0 < n) :
    (∀ s : LinkedList U, s.is_init = decide (s.size ≠ 0)) ∧
    (LinkedList.empty : LinkedList U).is_init = false ∧
    (∃ s : LinkedList U, LinkedList.sized n v = Outcome.returned s ∧ s.is_init = true) ∧
    (l.is_init = true ↔ xs ≠ []) := by
  refine ⟨fun s => rfl, rfl, ?_, ?_⟩
  · obtain ⟨m, rfl⟩ := Int.eq_ofNat_of_zero_le (Int.le_of_lt hn)
    refine ⟨_, sized_of_nonneg m v, ?_⟩
    simp only [LinkedList.is_init, LinkedList.ofList, List.length_replicate, decide_eq_true_eq]
    omega
  · simp only [LinkedList.is_init, h.2, decide_eq_true_eq, ne_eq]
    constructor
    · intro hlen hnil
      apply hlen
      rw [hnil]
      rfl
    · intro hne hlen
      apply hne
      apply List.length_eq_zero.mp
      exact_mod_cast hlen

/-- Witness of C26 as amended: the tests `create_empty_list` and `create_list_of_size`
(`List(5, 0)`), and the list `[1, 2]`. -/
theorem is_init_iff_witness :
    (LinkedList.ofList [1, 2] : LinkedList Int).Holds [1, 2] ∧ (0 : Int) < 5 ∧
    ((∀ s : LinkedList Int, s.is_init = decide (s.size ≠ 0)) ∧
    (LinkedList.empty : LinkedList Int).is_init = false ∧
    (∃ s : LinkedList Int, LinkedList.sized 5 0 = Outcome.returned s ∧ s.is_init = true) ∧
    ((LinkedList.ofList [1, 2] : LinkedList Int).is_init = true ↔ ([1, 2] : List Int) ≠ [])) :=
  ⟨⟨rfl, rfl⟩, by decide,
    is_init_iff (LinkedList.ofList [1, 2]) [1, 2] 5 0 ⟨rfl, rfl⟩ (by decide)⟩

/-- C29: for every `n < 0` the sized constructor `List(n, v)` returns without inserting
a node and stores the negative count: `size()` is `n`, `is_init()` is true, the sentinel
has no successor, and the list object satisfies the size invariant for no contents. -/
theorem sized_negative (n : Int) (v : U) (hn : n < 0) :
    ∃ l : LinkedList U, LinkedList.sized n v = Outcome.returned l ∧ l.size = n ∧
      l.is_init = true ∧ l.m_head.m_next = Link.nullptr ∧
      l.m_head.m_next.nodeCount = Except.ok 0 ∧ ¬ ∃ xs : List U, l.Holds xs := by
  refine ⟨_, sized_of_neg n v hn, rfl, ?_, rfl, rfl, ?_⟩
  · simp only [LinkedList.is_init, decide_eq_true_eq]
    omega
  · rintro ⟨xs, _, hsize⟩
    simp only at hsize
    omega

/-- Witness of C29: `List(-3, 0)`. -/
theorem sized_negative_witness :
    (-3 : Int) < 0 ∧
    (∃ l : LinkedList Int, LinkedList.sized (-3) 0 = Outcome.returned l ∧ l.size = -3 ∧
      l.is_init = true ∧ l.m_head.m_next = Link.nullptr ∧
      l.m_head.m_next.nodeCount = Except.ok 0 ∧ ¬ ∃ xs : List Int, l.Holds xs) ∧
    LinkedList.sized (-3) (0 : Int)
      = Outcome.returned { m_head := Node.default, m_size := -3 } :=
  ⟨by decide, sized_negative (-3) 0 (by decide), rfl⟩

/-! ## Valid positions -/

/-- C27: on a list object that satisfies the size invariant and for a position
`0 ≤ p < size()`, none of `at(p)`, `insert_back(v, p)`, `insert_front(v, p)` and
`remove_at(p)` stops: the walks end on an iterator bound to a node (after `p + 1` steps
for the first three, after `max(0, p - 1)` steps for `remove_at`), `at` returns a value
and the three others return. -/
theorem valid_position_no_fault (l : LinkedList U) (xs : List U) (v : U) (p : Int)
    (h : l.Holds xs) (hp0 : 0 ≤ p) (hp : p < l.size) :
    ForwardIterator.ofHead.advance l.m_head (p + 1).toNat
      = Except.ok { m_itr := NodeRef.node (p + 1).toNat } ∧
    ForwardIterator.ofHead.advance l.m_head (p - 2 + 1).toNat
      = Except.ok { m_itr := NodeRef.node (p - 2 + 1).toNat } ∧
    (∃ x : U, l.at p = Except.ok x) ∧
    (∃ l' : LinkedList U, l.insert_back v p = Outcome.returned l') ∧
    (∃ l' : LinkedList U, l.insert_front v p = Outcome.returned l') ∧
    (∃ l' : LinkedList U, l.remove_at p = Outcome.returned l') := by
  have hsize : l.m_size = (xs.length : Int) := h.2
  have hlt : p < (xs.length : Int) := by rw [← hsize]; exact hp
  obtain ⟨k, rfl⟩ := Int.eq_ofNat_of_zero_le hp0
  have hk : k < xs.length := by exact_mod_cast hlt
  have hne : xs ≠ [] := by
    intro hnil
    rw [hnil] at hk
    simp at hk
  have hadv : ∀ n : Nat, n ≤ xs.length →
      ForwardIterator.ofHead.advance l.m_head n = Except.ok { m_itr := NodeRef.node n } := by
    intro n hn
    have := advance_chainOf l.m_head.m_value xs n 0 (by omega)
    rw [← head_eq_of_holds h, Nat.zero_add] at this
    exact this
  refine ⟨hadv _ (by omega), hadv _ (by omega), ⟨_, at_of_holds h k hk⟩,
    ⟨_, insert_back_of_holds h v (k : Int) hlt⟩, ⟨_, insert_front_of_holds h v k hk⟩,
    ⟨_, remove_at_of_holds h (k : Int) hne hlt (by omega)⟩⟩

/-- Witness of C27: the list `[1, 2, 3]` with position 2. -/
theorem valid_position_no_fault_witness :
    (LinkedList.ofList [1, 2, 3] : LinkedList Int).Holds [1, 2, 3] ∧
    (0 : Int) ≤ 2 ∧ 2 < (LinkedList.ofList [1, 2, 3] : LinkedList Int).size ∧
    (ForwardIterator.ofHead.advance (LinkedList.ofList [1, 2, 3] : LinkedList Int).m_head
        ((2 : Int) + 1).toNat = Except.ok { m_itr := NodeRef.node ((2 : Int) + 1).toNat } ∧
    ForwardIterator.ofHead.advance (LinkedList.ofList [1, 2, 3] : LinkedList Int).m_head
        ((2 : Int) - 2 + 1).toNat
      = Except.ok { m_itr := NodeRef.node ((2 : Int) - 2 + 1).toNat } ∧
    (∃ x : Int, (LinkedList.ofList [1, 2, 3]).at 2 = Except.ok x) ∧
    (∃ l' : LinkedList Int, (LinkedList.ofList [1, 2, 3]).insert_back 9 2
      = Outcome.returned l') ∧
    (∃ l' : LinkedList Int, (LinkedList.ofList [1, 2, 3]).insert_front 9 2
      = Outcome.returned l') ∧
    (∃ l' : LinkedList Int, (LinkedList.ofList [1, 2, 3]).remove_at 2
      = Outcome.returned l')) :=
  ⟨⟨rfl, rfl⟩, by decide, by decide,
    valid_position_no_fault (LinkedList.ofList [1, 2, 3]) [1, 2, 3] 9 2 ⟨rfl, rfl⟩
      (by decide) (by decide)⟩

/-- C28: on a well-formed list with contents `xs` and for `1 ≤ p < size()`,
`remove_at(p)` walks `max(0, p - 1) = p - 1` steps from the sentinel and runs
`remove_back` on the node reached; the successor of that node, which is unlinked, is the
node of position `p - 1`, and the elements of the positions below `p - 1` stay in the
chain; `remove_at(1)` has the same result as `remove_at(0)`. -/
theorem remove_at_unlinks_previous (l : LinkedList U) (xs : List U) (p : Int)
    (h : l.Holds xs) (hp1 : 1 ≤ p) (hp : p < l.size) :
    (p - 2 + 1).toNat = (max 0 (p - 1)).toNat ∧
    ForwardIterator.ofHead.advance l.m_head (p - 2 + 1).toNat
      = Except.ok { m_itr := NodeRef.node (p - 1).toNat } ∧
    (∃ (n : Node U) (x : U), l.m_head.follow (p - 1).toNat = Except.ok n ∧
      xs[(p - 1).toNat]? = some x ∧
      n.m_next = Link.live (some x) (chainOf (xs.drop ((p - 1).toNat + 1)))) ∧
    l.remove_at p = Outcome.returned
      { m_head := { m_value := l.m_head.m_value,
                    m_next := chainEnding (chainOf (xs.drop ((p - 1).toNat + 1))).afterDelete
                      (xs.take (p - 1).toNat) },
        m_size := l.m_size - 1 } ∧
    l.remove_at 1 = l.remove_at 0 := by
  have hsize : l.m_size = (xs.length : Int) := h.2
  have hlt : p < (xs.length : Int) := by rw [← hsize]; exact hp
  have hk : (p - 2 + 1).toNat = (p - 1).toNat := by omega
  have hkl : (p - 1).toNat < xs.length := by omega
  have hne : xs ≠ [] := by
    intro hnil
    rw [hnil] at hkl
    simp at hkl
  have hrun := remove_at_of_holds h p hne hlt (by omega)
  rw [hk] at hrun
  refine ⟨by omega, ?_, ?_, hrun, ?_⟩
  · have := advance_chainOf l.m_head.m_value xs (p - 1).toNat 0 (by omega)
    rw [← head_eq_of_holds h, Nat.zero_add] at this
    rw [hk]
    exact this
  · refine ⟨{ m_value := payloadAt l.m_head.m_value xs (p - 1).toNat,
              m_next := chainOf (xs.drop (p - 1).toNat) },
      xs.get ⟨(p - 1).toNat, hkl⟩, ?_, ?_, ?_⟩
    · rw [head_eq_of_holds h]
      exact follow_chainOf _ xs (p - 1).toNat (Nat.le_of_lt hkl)
    · simp [List.getElem?_eq_getElem hkl]
    · exact chainOf_drop_live xs (p - 1).toNat hkl
  · have h1 := remove_at_of_holds h 1 hne (by omega) (by omega)
    have h0 := remove_at_of_holds h 0 hne (by omega) (by omega)
    rw [h1, h0]
    rfl

/-- Witness of C28: `remove_at(2)` on the list `[10, 20, 30]` walks one step and unlinks
the node holding 20. -/
theorem remove_at_unlinks_previous_witness :
    (LinkedList.ofList [10, 20, 30] : LinkedList Int).Holds [10, 20, 30] ∧
    (1 : Int) ≤ 2 ∧ 2 < (LinkedList.ofList [10, 20, 30] : LinkedList Int).size ∧
    ((2 : Int) - 2 + 1).toNat = (max 0 ((2 : Int) - 1)).toNat ∧
    ForwardIterator.ofHead.advance (LinkedList.ofList [10, 20, 30] : LinkedList Int).m_head
        ((2 : Int) - 2 + 1).toNat = Except.ok { m_itr := NodeRef.node ((2 : Int) - 1).toNat } ∧
    (∃ (n : Node Int) (x : Int),
      (LinkedList.ofList [10, 20, 30] : LinkedList Int).m_head.follow ((2 : Int) - 1).toNat
        = Except.ok n ∧
      ([10, 20, 30] : List Int)[((2 : Int) - 1).toNat]? = some x ∧
      n.m_next = Link.live (some x)
        (chainOf (([10, 20, 30] : List Int).drop (((2 : Int) - 1).toNat + 1)))) ∧
    (LinkedList.ofList [10, 20, 30] : LinkedList Int).remove_at 2 = Outcome.returned
      { m_head := { m_value := (LinkedList.ofList [10, 20, 30] : LinkedList Int).m_head.m_value,
                    m_next := chainEnding
                      (chainOf (([10, 20, 30] : List Int).drop
                        (((2 : Int) - 1).toNat + 1))).afterDelete
                      (([10, 20, 30] : List Int).take ((2 : Int) - 1).toNat) },
        m_size := (LinkedList.ofList [10, 20, 30] : LinkedList Int).m_size - 1 } ∧
    (LinkedList.ofList [10, 20, 30] : LinkedList Int).remove_at 1
      = (LinkedList.ofList [10, 20, 30] : LinkedList Int).remove_at 0 :=
  ⟨⟨rfl, rfl⟩, by decide, by decide,
    remove_at_unlinks_previous (LinkedList.ofList [10, 20, 30]) [10, 20, 30] 2 ⟨rfl, rfl⟩
      (by decide) (by decide)⟩

/-- C30: for every list object with `size() ≥ 0` and every negative position `p`,
`insert_back(v, p)` returns: the walk takes no step and `Node::insert_back` runs on the
sentinel, so the new node holding `v` is the successor of the sentinel, in front of the
former chain, and `size()` grows by 1; on a well-formed list with contents `xs` the
contents become `v` followed by `xs` and `at(0)` is `v`.  On an empty list
`push_back(v)` is this call with `p == -1`. -/
theorem insert_back_negative (l : LinkedList U) (v : U) (p : Int) (hp : p < 0)
    (hs : 0 ≤ l.size) :
    ForwardIterator.ofHead.advance l.m_head (p + 1).toNat = Except.ok ForwardIterator.ofHead ∧
    (∃ l' : LinkedList U, l.insert_back v p = Outcome.returned l' ∧
      l'.m_head = l.m_head.insert_back v ∧
      l'.m_head.m_value = l.m_head.m_value ∧
      l'.m_head.m_next = Link.live (some v) l.m_head.m_next ∧
      l'.size = l.size + 1 ∧
      ∀ xs : List U, l.Holds xs → l'.Holds (v :: xs) ∧ l'.at 0 = Except.ok v) ∧
    (l.size = 0 → l.push_back v = l.insert_back v (-1)) := by
  have hsz : l.m_size > p := by
    simp only [LinkedList.size] at hs
    omega
  have hn : (p + 1).toNat = 0 := by omega
  have hrun : l.insert_back v p = Outcome.returned
      { m_head := l.m_head.insert_back v, m_size := l.m_size + 1 } := by
    simp only [LinkedList.insert_back, hsz, if_true, hn, ForwardIterator.advance,
      ForwardIterator.ofHead, ForwardIterator.insert_back, ForwardIterator.call, Node.update]
  refine ⟨?_, ⟨_, hrun, rfl, rfl, rfl, rfl, ?_⟩, ?_⟩
  · rw [hn]
    rfl
  · intro xs h
    have hh : (LinkedList.mk (l.m_head.insert_back v) (l.m_size + 1)).Holds (v :: xs) := by
      refine ⟨?_, ?_⟩
      · simp only [Node.insert_back, Node.ofValue, Node.toLink, chainOf, h.1]
      · simp only [h.2, List.length_cons]
        omega
    exact ⟨hh, at_of_getElem_opt hh 0 v (by simp)⟩
  · intro hz
    have hz2 : l.m_size = 0 := hz
    simp only [LinkedList.push_back, hz2]
    rfl

/-- Witness of C30: `insert_back(9, -5)` on the list `[1, 2]`, which gives `[9, 1, 2]`. -/
theorem insert_back_negative_witness :
    (-5 : Int) < 0 ∧ 0 ≤ (LinkedList.ofList [1, 2] : LinkedList Int).size ∧
    (ForwardIterator.ofHead.advance (LinkedList.ofList [1, 2] : LinkedList Int).m_head
        ((-5 : Int) + 1).toNat = Except.ok ForwardIterator.ofHead ∧
    (∃ l' : LinkedList Int, (LinkedList.ofList [1, 2]).insert_back 9 (-5)
        = Outcome.returned l' ∧
      l'.m_head = (LinkedList.ofList [1, 2] : LinkedList Int).m_head.insert_back 9 ∧
      l'.m_head.m_value = (LinkedList.ofList [1, 2] : LinkedList Int).m_head.m_value ∧
      l'.m_head.m_next
        = Link.live (some 9) (LinkedList.ofList [1, 2] : LinkedList Int).m_head.m_next ∧
      l'.size = (LinkedList.ofList [1, 2] : LinkedList Int).size + 1 ∧
      ∀ xs : List Int, (LinkedList.ofList [1, 2] : LinkedList Int).Holds xs →
        l'.Holds (9 :: xs) ∧ l'.at 0 = Except.ok 9) ∧
    ((LinkedList.ofList [1, 2] : LinkedList Int).size = 0 →
      (LinkedList.ofList [1, 2] : LinkedList Int).push_back 9
        = (LinkedList.ofList [1, 2] : LinkedList Int).insert_back 9 (-1))) ∧
    (LinkedList.ofList [1, 2] : LinkedList Int).insert_back 9 (-5)
      = Outcome.returned (LinkedList.ofList [9, 1, 2]) ∧
    (LinkedList.empty : LinkedList Int).push_back 9
      = (LinkedList.empty : LinkedList Int).insert_back 9 (-1) :=
  ⟨by decide, by decide,
    insert_back_negative (LinkedList.ofList [1, 2]) 9 (-5) (by decide) (by decide),
    rfl, rfl⟩

/-! ## Growing an empty list -/

/-- C31 refuted in its last part: `insert_back(9, -2)` and `insert_front(9, -1)` on the
empty list return a list of size 1, so `push_back` is not the only call that grows an
empty list. -/
theorem empty_grows_without_push_back :
    (LinkedList.empty : LinkedList Int).insert_back 9 (-2)
      = Outcome.returned (LinkedList.ofList [9]) ∧
    (LinkedList.ofList [9] : LinkedList Int).size = 1 ∧
    (LinkedList.empty : LinkedList Int).insert_front 9 (-1) = Outcome.returned
      { m_head := { m_value := some 9, m_next := Link.live none Link.nullptr }, m_size := 1 } :=
  ⟨rfl, rfl, rfl⟩

/-- C31 as amended: on a list object of size 0, `push_front(v)`, which is
`insert_back(v, 0)`, stops on "Cannot insert element beyond the end of a list", and so
does every insertion at a position `p ≥ 0`; `push_back(v)` returns a list of size 1, and
so does `insert_back(v, p)` at every negative position. -/
theorem push_front_empty (l : LinkedList U) (v : U) (h : l.size = 0) :
    l.push_front v = l.insert_back v 0 ∧
    l.push_front v = Outcome.aborted
      (Fault.assertion "Cannot insert element beyond the end of a list") l ∧
    (∀ p : Int, 0 ≤ p →
      l.insert_back v p = Outcome.aborted
        (Fault.assertion "Cannot insert element beyond the end of a list") l ∧
      l.insert_front v p = Outcome.aborted
        (Fault.assertion "Cannot insert element beyond the end of a list") l) ∧
    (∃ l' : LinkedList U, l.push_back v = Outcome.returned l' ∧ l'.size = 1) ∧
    (∀ p : Int, p < 0 →
      ∃ l' : LinkedList U, l.insert_back v p = Outcome.returned l' ∧ l'.size = 1) := by
  have hz : l.m_size = 0 := h
  have hneg : ∀ p : Int, p < 0 →
      l.insert_back v p = Outcome.returned
        { m_head := l.m_head.insert_back v, m_size := l.m_size + 1 } := by
    intro p hp
    have hsz : l.m_size > p := by omega
    have hn : (p + 1).toNat = 0 := by omega
    simp only [LinkedList.insert_back, hsz, if_true, hn, ForwardIterator.advance,
      ForwardIterator.ofHead, ForwardIterator.insert_back, ForwardIterator.call, Node.update]
  have hnot : ∀ p : Int, 0 ≤ p → ¬ (l.m_size > p) := by
    intro p hp
    omega
  refine ⟨rfl, ?_, ?_, ?_, ?_⟩
  · simp only [LinkedList.push_front, LinkedList.insert_back, hnot 0 (Int.le_refl _), if_false]
  · intro p hp
    constructor
    · simp only [LinkedList.insert_back, hnot p hp, if_false]
    · simp only [LinkedList.insert_front, hnot p hp, if_false]
  · refine ⟨{ m_head := l.m_head.insert_back v, m_size := l.m_size + 1 }, ?_, ?_⟩
    · simp only [LinkedList.push_back]
      exact hneg (l.m_size - 1) (by omega)
    · simp only [LinkedList.size, hz]
      rfl
  · intro p hp
    refine ⟨_, hneg p hp, ?_⟩
    simp only [LinkedList.size, hz]
    rfl

/-- Witness of C31 as amended: the default-constructed list and the value 9. -/
theorem push_front_empty_witness :
    (LinkedList.empty : LinkedList Int).size = 0 ∧
    (LinkedList.empty : LinkedList Int).push_front 9 = Outcome.aborted
      (Fault.assertion "Cannot insert element beyond the end of a list") LinkedList.empty ∧
    (LinkedList.empty : LinkedList Int).insert_front 9 0 = Outcome.aborted
      (Fault.assertion "Cannot insert element beyond the end of a list") LinkedList.empty ∧
    (∃ l' : LinkedList Int, LinkedList.empty.push_back 9 = Outcome.returned l' ∧
      l'.size = 1) ∧
    (∃ l' : LinkedList Int, LinkedList.empty.insert_back 9 (-2) = Outcome.returned l' ∧
      l'.size = 1) :=
  have h := push_front_empty (LinkedList.empty : LinkedList Int) 9 rfl
  ⟨rfl, h.2.1, (h.2.2.1 0 (by decide)).2, h.2.2.2.1, h.2.2.2.2 (-2) (by decide)⟩

/-! ## The stack -/

/-- C32, evaluated on the freshly constructed stack and on the stack holding one value:
`is_empty()` converts `m_top + 1` to `bool`, so it is false for the fresh stack, which
holds nothing, and true after `push(7)`. -/
theorem is_empty_inverted :
    Stack.init.m_top = -1 ∧ Stack.init.Holds [] ∧ Stack.init.is_empty = false ∧
    (∃ s : Stack, Stack.init.push 7 = Outcome.returned s ∧ s.m_top = 0 ∧
      s.peek = Except.ok 7 ∧ s.is_empty = true) ∧
    (∀ (s : Stack) (xs : List Int), s.Holds xs → (s.is_empty = true ↔ xs ≠ [])) := by
  refine ⟨rfl, ⟨rfl, rfl, by decide, ?_⟩, rfl, ⟨_, rfl, rfl, rfl, rfl⟩, ?_⟩
  · intro i hi
    simp at hi
  · intro s xs h
    simp only [Stack.is_empty, h.1, decide_eq_true_eq, ne_eq]
    constructor
    · intro hne hnil
      apply hne
      rw [hnil]
      rfl
    · intro hne hz
      apply hne
      apply List.length_eq_zero.mp
      omega

theorem stack_peek_of_holds {s : Stack} {xs : List Int} {v : Int} (h : s.Holds (xs ++ [v])) :
    s.peek = Except.ok v := by
  obtain ⟨htop, _, _, hget⟩ := h
  simp only [List.length_append, List.length_singleton] at htop hget
  have hgt : s.m_top > -1 := by omega
  have hidx : s.m_top.toNat = xs.length := by omega
  have hslot := hget xs.length (by omega)
  simp only [List.getElem?_append_right (Nat.le_refl _), Nat.sub_self, List.getElem?_cons_zero,
    Option.map_some'] at hslot
  simp only [Stack.peek, hgt, if_true, hidx, hslot]

theorem stack_peek_empty {s : Stack} (h : s.m_top = -1) :
    s.peek = Except.error (Fault.assertion "Can't peek at an empty stack") := by
  simp [Stack.peek, h]

theorem stack_push_of_holds {s : Stack} {xs : List Int} (h : s.Holds xs) (v : Int)
    (hlt : xs.length < MAX_SIZE) :
    s.push v = Outcome.returned
        { m_arr := s.m_arr.set xs.length (Slot.live v), m_top := (xs.length : Int) } ∧
    (Stack.mk (s.m_arr.set xs.length (Slot.live v)) (xs.length : Int)).Holds (xs ++ [v]) := by
  obtain ⟨htop, hlen, _, hget⟩ := h
  have hmax : MAX_SIZE = 100 := rfl
  have hcond : s.m_top < (MAX_SIZE : Int) - 1 := by omega
  have hidx : (s.m_top + 1).toNat = xs.length := by omega
  have hin : 0 ≤ s.m_top + 1 ∧ (s.m_top + 1).toNat < s.m_arr.length := by
    rw [hidx, hlen]
    exact ⟨by omega, hlt⟩
  have htop1 : s.m_top + 1 = (xs.length : Int) := by omega
  refine ⟨?_, ?_, ?_, ?_, ?_⟩
  · unfold Stack.push
    rw [if_pos hcond, if_pos hin, hidx, htop1]
  · simp only [List.length_append, List.length_singleton]
    omega
  · simp only [List.length_set, hlen]
  · simp only [List.length_append, List.length_singleton]
    omega
  · intro i hi
    simp only [List.length_append, List.length_singleton] at hi
    by_cases hil : i = xs.length
    · subst hil
      rw [List.getElem?_set_self (by rw [hlen]; exact hlt)]
      simp [List.getElem?_append_right (Nat.le_refl _)]
    · have hi2 : i < xs.length := by omega
      rw [List.getElem?_set_ne (fun hne => hil hne.symm), hget i hi2,
        List.getElem?_append_left hi2]

theorem stack_pop_of_holds {s : Stack} {xs : List Int} {v : Int} (h : s.Holds (xs ++ [v])) :
    s.pop = Outcome.returned
        { m_arr := s.m_arr.set xs.length Slot.deleted, m_top := (xs.length : Int) - 1 } ∧
    (Stack.mk (s.m_arr.set xs.length Slot.deleted) ((xs.length : Int) - 1)).Holds xs := by
  obtain ⟨htop, hlen, hle, hget⟩ := h
  simp only [List.length_append, List.length_singleton] at htop hget hle
  have hgt : s.m_top > -1 := by omega
  have hidx : s.m_top.toNat = xs.length := by omega
  have htop1 : s.m_top - 1 = (xs.length : Int) - 1 := by omega
  have hslot := hget xs.length (by omega)
  simp only [List.getElem?_append_right (Nat.le_refl _), Nat.sub_self, List.getElem?_cons_zero,
    Option.map_some'] at hslot
  refine ⟨?_, rfl, ?_, by omega, ?_⟩
  · simp only [Stack.pop, hgt, if_true, hidx, hslot, htop1]
  · simp only [List.length_set, hlen]
  · intro i hi
    rw [List.getElem?_set_ne (by omega), hget i (by omega), List.getElem?_append_left hi]

/-- C33: for every stack holding fewer than `MAX_SIZE` values and every value `v`,
`push(v)` returns and `peek()` is then `v`; a `pop()` after it returns and restores the
number of values, `m_top` and the result of `peek()`.  `push` stops on its assertion when
`MAX_SIZE` values are held, and `pop` and `peek` stop on theirs on a stack that holds
nothing. -/
theorem stack_lifo (s : Stack) (xs : List Int) (v : Int) (h : s.Holds xs)
    (hlt : xs.length < MAX_SIZE) :
    (∃ s1 s2 : Stack, s.push v = Outcome.returned s1 ∧ s1.peek = Except.ok v ∧
      s1.Holds (xs ++ [v]) ∧ s1.pop = Outcome.returned s2 ∧ s2.Holds xs ∧
      s2.m_top = s.m_top ∧ s2.peek = s.peek) ∧
    (∀ (t : Stack) (ys : List Int), t.Holds ys → ys.length = MAX_SIZE → ∀ w : Int,
      t.push w = Outcome.aborted (Fault.assertion "Stack overflow would occur with push") t) ∧
    (∀ t : Stack, t.Holds [] →
      t.pop = Outcome.aborted (Fault.assertion "Stack underflow would occur with pop") t ∧
      t.peek = Except.error (Fault.assertion "Can't peek at an empty stack")) := by
  have hpush := stack_push_of_holds h v hlt
  have hpop := stack_pop_of_holds hpush.2
  refine ⟨⟨_, _, hpush.1, stack_peek_of_holds hpush.2, hpush.2, hpop.1, hpop.2, ?_, ?_⟩, ?_, ?_⟩
  · exact h.1.symm
  · rcases List.eq_nil_or_concat xs with hnil | ⟨ys, y, hxs⟩
    · subst hnil
      rw [stack_peek_empty (by simp), stack_peek_empty (by simpa using h.1)]
    · subst hxs
      rw [List.concat_eq_append] at h hpop ⊢
      rw [stack_peek_of_holds hpop.2, stack_peek_of_holds h]
  · intro t ys ht hfull w
    have hnot : ¬ (t.m_top < (MAX_SIZE : Int) - 1) := by
      rw [ht.1, hfull]
      omega
    simp only [Stack.push, hnot, if_false]
  · intro t ht
    have htop : t.m_top = -1 := by simpa using ht.1
    refine ⟨?_, stack_peek_empty htop⟩
    simp [Stack.pop, htop]

/-- Witness of C33: `push(7)` and `pop()` on the freshly constructed stack. -/
theorem stack_lifo_witness :
    Stack.init.Holds [] ∧ ([] : List Int).length < MAX_SIZE ∧
    (∃ s1 s2 : Stack, Stack.init.push 7 = Outcome.returned s1 ∧ s1.peek = Except.ok 7 ∧
      s1.Holds ([] ++ [7]) ∧ s1.pop = Outcome.returned s2 ∧ s2.Holds [] ∧
      s2.m_top = Stack.init.m_top ∧ s2.peek = Stack.init.peek) ∧
    Stack.init.pop
      = Outcome.aborted (Fault.assertion "Stack underflow would occur with pop") Stack.init ∧
    Stack.init.peek = Except.error (Fault.assertion "Can't peek at an empty stack") :=
  have hinit : Stack.init.Holds [] := ⟨rfl, rfl, by decide, fun i hi => by simp at hi⟩
  have h := stack_lifo Stack.init [] 7 hinit (by decide)
  ⟨hinit, by decide, h.1, (h.2.2 Stack.init hinit).1, (h.2.2 Stack.init hinit).2⟩

end Dsa

namespace ImageClassifier

/-! ## The split into training and validation rows -/

/-- C34, evaluated on the row ranges of `Classifier::NeuralNet`: row 49999 is both a
training row and a validation row, and row 59999 of the 60000 rows is neither; the two
ranges are not disjoint and do not cover all rows. -/
theorem split_overlaps_and_misses :
    inTraining 49999 ∧ inValidation 49999 ∧
    59999 < trainRowCount ∧ ¬ inTraining 59999 ∧ ¬ inValidation 59999 ∧
    (∀ i : Nat, inTraining i ↔ i < 50000) ∧
    (∀ i : Nat, inValidation i ↔ 49999 ≤ i ∧ i < 59999) := by
  refine ⟨by decide, by decide, by decide, by decide, by decide, ?_, ?_⟩
  · intro i
    simp only [inTraining, inBlock]
    omega
  · intro i
    simp only [inValidation, inBlock]

/-! ## The header words of the MNIST files -/

theorem reverseInt_eq (i : Int) :
    reverseInt i = ((i % 256 * 16777216 + i / 256 % 256 * 65536 + i / 65536 % 256 * 256
      + i / 16777216 % 256 + 2147483648) % 4294967296 - 2147483648) := rfl

theorem word_digits (x : Int) :
    x % 4294967296 = x % 256 + 256 * (x / 256 % 256) + 65536 * (x / 65536 % 256)
      + 16777216 * (x / 16777216 % 256) := by
  omega

theorem digits_unique (a b c d a' b' c' d' : Int)
    (ha : 0 ≤ a ∧ a < 256) (hb : 0 ≤ b ∧ b < 256) (hc : 0 ≤ c ∧ c < 256)
    (ha' : 0 ≤ a' ∧ a' < 256) (hb' : 0 ≤ b' ∧ b' < 256) (hc' : 0 ≤ c' ∧ c' < 256)
    (h : a + 256 * b + 65536 * c + 16777216 * d = a' + 256 * b' + 65536 * c' + 16777216 * d') :
    a = a' ∧ b = b' ∧ c = c' ∧ d = d' := by
  omega

theorem reversed_digits (i r : Int)
    (hr : r = (i % 256 * 16777216 + i / 256 % 256 * 65536 + i / 65536 % 256 * 256
      + i / 16777216 % 256 + 2147483648) % 4294967296 - 2147483648) :
    r % 256 = i / 16777216 % 256 ∧ r / 256 % 256 = i / 65536 % 256 ∧
    r / 65536 % 256 = i / 256 % 256 ∧ r / 16777216 % 256 = i % 256 ∧
    -2147483648 ≤ r ∧ r < 2147483648 := by
  have hrd := word_digits r
  have ba : 0 ≤ i % 256 ∧ i % 256 < 256 := by omega
  have bb : 0 ≤ i / 256 % 256 ∧ i / 256 % 256 < 256 := by omega
  have bc : 0 ≤ i / 65536 % 256 ∧ i / 65536 % 256 < 256 := by omega
  have bd : 0 ≤ i / 16777216 % 256 ∧ i / 16777216 % 256 < 256 := by omega
  have ba' : 0 ≤ r % 256 ∧ r % 256 < 256 := by omega
  have bb' : 0 ≤ r / 256 % 256 ∧ r / 256 % 256 < 256 := by omega
  have bc' : 0 ≤ r / 65536 % 256 ∧ r / 65536 % 256 < 256 := by omega
  generalize i / 16777216 % 256 = d at *
  generalize i / 65536 % 256 = c at *
  generalize i / 256 % 256 = b at *
  generalize i % 256 = a at *
  have hrange : -2147483648 ≤ r ∧ r < 2147483648 := by omega
  have hrmod : r % 4294967296 = a * 16777216 + b * 65536 + c * 256 + d := by omega
  generalize r / 16777216 % 256 = d' at *
  generalize r / 65536 % 256 = c' at *
  generalize r / 256 % 256 = b' at *
  generalize r % 256 = a' at *
  have hu := digits_unique a' b' c' d' d c b a ba' bb' bc' bd bc bb (by omega)
  exact ⟨hu.1, hu.2.1, hu.2.2.1, hu.2.2.2, hrange.1, hrange.2⟩

/-- C35: for every 32-bit `i`, `reverseInt(i)` is the 32-bit integer whose byte `k` is
byte `3 - k` of `i`, so `reverseInt(reverseInt(i)) == i`; the word `0x03080000`, which
is what a little-endian machine reads from the header bytes `00 00 08 03`, is mapped to
2051. -/
theorem reverseInt_reverses_bytes (i : Int) (hlo : -2147483648 ≤ i) (hhi : i < 2147483648) :
    (∀ k : Nat, k < 4 → byteOf (reverseInt i) k = byteOf i (3 - k)) ∧
    -2147483648 ≤ reverseInt i ∧ reverseInt i < 2147483648 ∧
    reverseInt (reverseInt i) = i ∧
    reverseInt 0x03080000 = 2051 := by
  have key := reversed_digits i (reverseInt i) (reverseInt_eq i)
  have hrr := reverseInt_eq (reverseInt i)
  have hi := word_digits i
  generalize reverseInt i = r at key hrr ⊢
  refine ⟨?_, key.2.2.2.2.1, key.2.2.2.2.2, ?_, by decide⟩
  · intro k hk
    have hcases : k = 0 ∨ k = 1 ∨ k = 2 ∨ k = 3 := by omega
    rcases hcases with rfl | rfl | rfl | rfl
    · simpa [byteOf] using key.1
    · simpa [byteOf] using key.2.1
    · simpa [byteOf] using key.2.2.1
    · simpa [byteOf] using key.2.2.2.1
  · rw [hrr, key.1, key.2.1, key.2.2.1, key.2.2.2.1]
    generalize i / 16777216 % 256 = d at *
    generalize i / 65536 % 256 = c at *
    generalize i / 256 % 256 = b at *
    generalize i % 256 = a at *
    omega

/-- Witness of C35: the magic number of the image file and a negative word. -/
theorem reverseInt_reverses_bytes_witness :
    (-2147483648 : Int) ≤ 0x03080000 ∧ (0x03080000 : Int) < 2147483648 ∧
    ((∀ k : Nat, k < 4 → byteOf (reverseInt 0x03080000) k = byteOf 0x03080000 (3 - k)) ∧
    -2147483648 ≤ reverseInt 0x03080000 ∧ reverseInt 0x03080000 < 2147483648 ∧
    reverseInt (reverseInt 0x03080000) = 0x03080000 ∧
    reverseInt 0x03080000 = 2051) ∧
    reverseInt 1 = 16777216 ∧ reverseInt 128 = -2147483648 ∧ reverseInt (-2) = -16777217 :=
  ⟨by decide, by decide, reverseInt_reverses_bytes 0x03080000 (by decide) (by decide),
    by decide, by decide, by decide⟩

end ImageClassifier
